import Mathlib

set_option maxHeartbeats 2000000
set_option maxRecDepth 8000

/-!
Verification of the PDF chapter segmenter (src/app.py).

The program is embedded shallowly: Python strings become `List Char`,
Python ints become `Int` (page counts, being `len(...)` results, are `Nat`
and are cast where compared), dictionaries become association lists whose
iteration order is insertion order (Python 3.7 dict semantics), and the
external PDF accessors (PyMuPDF / PyPDF2) become fields of a `PdfDocument`
record holding the data the code reads from them.  Every regular expression
of the source is compiled by hand into a total matching function with the
same match semantics (leftmost match, greedy or lazy quantifiers,
alternation preference, IGNORECASE where the source sets it).
-/

/-- Shorthand used to write character-list literals from string literals. -/
def cs (s : String) : List Char := s.toList

/-- Whitespace class used by Python str.strip and the regex class for s,
restricted to the ASCII whitespace characters. -/
def isPySpace (c : Char) : Bool :=
  c = ' ' || c = '\t' || c = '\n' || c = '\r' || c = '\x0b' || c = '\x0c'

/-- Embedding of Python str.strip with no argument: remove leading and
trailing whitespace. -/
def pyStrip (s : List Char) : List Char :=
  ((s.dropWhile isPySpace).reverse.dropWhile isPySpace).reverse

/-- Embedding of Python str.strip with an explicit character set. -/
def stripChars (p : Char → Bool) (s : List Char) : List Char :=
  ((s.dropWhile p).reverse.dropWhile p).reverse

/-- Word character of the regex class w over ASCII text. -/
def isWordChar (c : Char) : Bool := c.isAlphanum || c = '_'

/-- Embedding of Python str.split with a single separator character. -/
def splitOnChar (sep : Char) (s : List Char) : List (List Char) :=
  s.foldr
    (fun c acc =>
      if c = sep then [] :: acc
      else
        match acc with
        | [] => [[c]]
        | g :: gs => (c :: g) :: gs)
    [[]]

/-- Embedding of the Python substring test (needle in haystack). -/
def listHasInfix (needle : List Char) : List Char → Bool
  | [] => needle.isEmpty
  | c :: rest => needle.isPrefixOf (c :: rest) || listHasInfix needle rest

/-- First defined value of f over a list, embedding an early-return loop. -/
def firstSome {α β : Type} (f : α → Option β) : List α → Option β
  | [] => none
  | a :: l =>
    match f a with
    | some b => some b
    | none => firstSome f l

/-- Association-list write with Python dict semantics: an existing key is
overwritten in place, a new key is appended (insertion order kept). -/
def dictInsert (m : List (List Char × Int)) (k : List Char) (v : Int) :
    List (List Char × Int) :=
  if m.any (fun p => p.1 = k) then
    m.map (fun p => if p.1 = k then (k, v) else p)
  else m ++ [(k, v)]

/-- Association-list write with Python dict.setdefault semantics: the first
write for a key wins. -/
def dictSetdefault (m : List (List Char × Int)) (k : List Char) (v : Int) :
    List (List Char × Int) :=
  if m.any (fun p => p.1 = k) then m else m ++ [(k, v)]

/-- Association-list read, Python d[k] / k in d. -/
def dictLookup (m : List (List Char × Int)) (k : List Char) : Option Int :=
  (m.find? (fun p => p.1 = k)).map (fun p => p.2)

/-- Decimal digit run to a natural number. -/
def digitsToNat (s : List Char) : Nat :=
  s.foldl (fun acc c => acc * 10 + (c.toNat - '0'.toNat)) 0

/-- Embedding of the Python int constructor on a string: an optional sign
followed by at least one decimal digit (the input is already stripped at
every call site). -/
def pyIntParse (s : List Char) : Option Int :=
  match s with
  | '-' :: rest =>
    if rest ≠ [] ∧ rest.all Char.isDigit then some (-(digitsToNat rest : Int)) else none
  | '+' :: rest =>
    if rest ≠ [] ∧ rest.all Char.isDigit then some ((digitsToNat rest : Int)) else none
  | _ =>
    if s ≠ [] ∧ s.all Char.isDigit then some ((digitsToNat s : Int)) else none

/-- Decimal digits of a natural number, embedding Python str on ints.  The
fuel argument only bounds the recursion depth (the number has at most as
many digits as its value); it is spent one unit per emitted digit. -/
def natToDigitsAux (fuel : Nat) (n : Nat) : List Char :=
  match fuel with
  | 0 => []
  | Nat.succ f =>
    if n < 10 then [Char.ofNat ('0'.toNat + n)]
    else natToDigitsAux f (n / 10) ++ [Char.ofNat ('0'.toNat + n % 10)]

/-- Decimal digits of a natural number, embedding Python str on ints. -/
def natToDigits (n : Nat) : List Char := natToDigitsAux (n + 1) n

/-- Embedding of Python str on an int, including a possible minus sign. -/
def intToChars (i : Int) : List Char :=
  if i < 0 then '-' :: natToDigits (-i).toNat else natToDigits i.toNat

/-- Roman-numeral character class of the source regexes, both cases. -/
def isRomanChar (c : Char) : Bool :=
  c = 'i' || c = 'v' || c = 'x' || c = 'l' || c = 'c' || c = 'd' || c = 'm' ||
  c = 'I' || c = 'V' || c = 'X' || c = 'L' || c = 'C' || c = 'D' || c = 'M'

/-!
The validation regex _ROMAN_RE of app.py line 15:
anchored M-0-to-4 (CM|CD|D?C-0-to-3) (XC|XL|L?X-0-to-3) (IX|IV|V?I-0-to-3),
IGNORECASE.  The input is uppercased before matching, so the matcher below
works on uppercase text.  Each group is a finite language; the matcher
consumes, for each group in turn, the first of its candidate strings (listed
in the preference order of the regex alternation and greedy quantifiers)
that is a prefix of the remaining input.  Committing to that choice is
complete: the candidate languages are such that after a correct parse of one
group, no string of a later group can begin with a character the earlier
group gave up (M never occurs after the leading run, C and D never occur in
the tens or units groups, X and L never occur in the units group), so a
match exists if and only if this deterministic scan ends at the end of the
string.
-/

/-- Candidates of the leading M-0-to-4, longest first. -/
def romanMCands : List (List Char) := [cs "MMMM", cs "MMM", cs "MM", cs "M"]

/-- Candidates of CM|CD|D?C-0-to-3 in regex preference order. -/
def romanHCands : List (List Char) :=
  [cs "CM", cs "CD", cs "DCCC", cs "DCC", cs "DC", cs "D", cs "CCC", cs "CC", cs "C"]

/-- Candidates of XC|XL|L?X-0-to-3 in regex preference order. -/
def romanTCands : List (List Char) :=
  [cs "XC", cs "XL", cs "LXXX", cs "LXX", cs "LX", cs "L", cs "XXX", cs "XX", cs "X"]

/-- Candidates of IX|IV|V?I-0-to-3 in regex preference order. -/
def romanUCands : List (List Char) :=
  [cs "IX", cs "IV", cs "VIII", cs "VII", cs "VI", cs "V", cs "III", cs "II", cs "I"]

/-- Consume the first candidate that prefixes the input; if none does, the
group matches the empty string. -/
def takeFirstCand (cands : List (List Char)) (s : List Char) :
    List Char × List Char :=
  match cands with
  | [] => ([], s)
  | c :: rest =>
    if c.isPrefixOf s then (c, s.drop c.length) else takeFirstCand rest s

/-- Anchored parse of the roman-numeral regex on uppercase input, returning
the four group matches. -/
def romanParse (s : List Char) :
    Option (List Char × List Char × List Char × List Char) :=
  let pm := takeFirstCand romanMCands s
  let ph := takeFirstCand romanHCands pm.2
  let pt := takeFirstCand romanTCands ph.2
  let pu := takeFirstCand romanUCands pt.2
  if pu.2 = [] then some (pm.1, ph.1, pt.1, pu.1) else none

/-- Whether the uppercase input matches the anchored roman-numeral regex. -/
def romanRe (s : List Char) : Bool := (romanParse s).isSome

/-- Symbol values of the val table in _roman_to_int (app.py line 25). -/
def romanVal (c : Char) : Int :=
  if c = 'I' then 1 else if c = 'V' then 5
  else if c = 'X' then 10 else if c = 'L' then 50
  else if c = 'C' then 100 else if c = 'D' then 500
  else if c = 'M' then 1000 else 0

/-- One step of the right-to-left accumulation loop of _roman_to_int: the
state is (result, prev); the value of the current symbol is added when at
least prev, subtracted otherwise, and becomes the new prev. -/
def romanFoldStep (acc : Int × Int) (ch : Char) : Int × Int :=
  let v := romanVal ch
  (acc.1 + (if acc.2 ≤ v then v else -v), v)

/-- The right-to-left accumulation loop of _roman_to_int, started from
result 0 and prev 0. -/
def romanSuffixState (t : List Char) : Int × Int :=
  t.reverse.foldl romanFoldStep ((0 : Int), (0 : Int))

/-- The accumulated value of the loop of _roman_to_int. -/
def romanValue (t : List Char) : Int := (romanSuffixState t).1

/-- Embedding of _roman_to_int (app.py lines 20-33): strip and uppercase,
reject the empty string and regex failures, evaluate right to left, and
also reject a non-positive result. -/
def _roman_to_int (s : List Char) : Option Int :=
  let t := (pyStrip s).map Char.toUpper
  if t = [] then none
  else if romanRe t = false then none
  else
    let r := romanValue t
    if 0 < r then some r else none

/-- Value and symbol table of _int_to_roman (app.py lines 38-39). -/
def romanTable : List (Nat × List Char) :=
  [(1000, cs "M"), (900, cs "CM"), (500, cs "D"), (400, cs "CD"),
   (100, cs "C"), (90, cs "XC"), (50, cs "L"), (40, cs "XL"),
   (10, cs "X"), (9, cs "IX"), (5, cs "V"), (4, cs "IV"), (1, cs "I")]

/-- The inner while loop of _int_to_roman: append the symbol while the value
still fits, returning the text produced and the remaining number.  The fuel
argument only bounds the recursion depth; one unit is spent per loop
iteration, and n units suffice because every table value is at least 1. -/
def whileSubAux (v : Nat) (sym : List Char) (fuel : Nat) (n : Nat) :
    List Char × Nat :=
  match fuel with
  | 0 => ([], n)
  | Nat.succ f =>
    if v ≤ n then
      let p := whileSubAux v sym f (n - v)
      (sym ++ p.1, p.2)
    else ([], n)

/-- The inner while loop of _int_to_roman (see whileSubAux). -/
def whileSub (v : Nat) (sym : List Char) (n : Nat) : List Char × Nat :=
  whileSubAux v sym n n

/-- One table entry of the loop of _int_to_roman: run the inner while loop
on the remaining number and append its output. -/
def intToRomanStep (acc : List Char × Nat) (p : Nat × List Char) :
    List Char × Nat :=
  let r := whileSub p.1 p.2 acc.2
  (acc.1 ++ r.1, r.2)

/-- Embedding of _int_to_roman (app.py lines 36-45): greedy subtraction over
the table. -/
def _int_to_roman (n : Nat) : List Char :=
  (romanTable.foldl intToRomanStep (([] : List Char), n)).1

/-- Embedding of _int_to_alpha (app.py lines 48-54): bijective base 26.
The fuel argument only bounds the recursion depth; one unit is spent per
output letter and the working value shrinks strictly each round. -/
def intToAlphaAux (fuel : Nat) (n : Nat) : List Char :=
  match fuel with
  | 0 => []
  | Nat.succ f =>
    if 0 < n then
      intToAlphaAux f ((n - 1) / 26) ++ [Char.ofNat ('A'.toNat + (n - 1) % 26)]
    else []

/-- Embedding of _int_to_alpha (app.py lines 48-54): bijective base 26. -/
def _int_to_alpha (n : Nat) : List Char := intToAlphaAux n n

/-!
Data model.  A Chapter mirrors the dataclass of app.py lines 61-67:
title, 1-based start page, optional exclusive-by-convention end page, and
nesting level.
-/

structure Chapter where
  title : List Char
  start_page : Int
  end_page : Option Int
  level : Int
deriving DecidableEq, Repr

/-- The seen-set deduplication loop used by every chapter pipeline of
app.py: iterate in order, keep an element when its key is new. -/
def dedupByKeyAux {κ : Type} [DecidableEq κ] (key : Chapter → κ)
    (seen : List κ) : List Chapter → List Chapter
  | [] => []
  | c :: rest =>
    if key c ∈ seen then dedupByKeyAux key seen rest
    else c :: dedupByKeyAux key (key c :: seen) rest

/-- Seen-set deduplication from an empty seen set. -/
def dedupByKey {κ : Type} [DecidableEq κ] (key : Chapter → κ)
    (l : List Chapter) : List Chapter :=
  dedupByKeyAux key [] l

/-- Comparison key of every sort in app.py: key=lambda x: x.start_page. -/
def chapterLe (a b : Chapter) : Prop := a.start_page ≤ b.start_page

instance : DecidableRel chapterLe :=
  fun a b => inferInstanceAs (Decidable (a.start_page ≤ b.start_page))

instance : IsTotal Chapter chapterLe := ⟨fun _ _ => Int.le_total _ _⟩

instance : IsTrans Chapter chapterLe := ⟨fun _ _ _ h1 h2 => Int.le_trans h1 h2⟩

/-- Embedding of the stable Python list.sort with key start_page.  A stable
sort is unique, so insertion sort with a non-strict comparison (which keeps
earlier elements of equal key in front) has exactly the Python semantics. -/
def sortChapters (l : List Chapter) : List Chapter := List.insertionSort chapterLe l

/-- Embedding of the end-page assignment loop repeated at app.py lines
313-316, 362-365, 495-498, 527-530 and 585-588: every chapter but the last
gets the start page of its successor minus one, the last gets the total
page count. -/
def assignEnds (total : Int) : List Chapter → List Chapter
  | [] => []
  | [c] => [{ c with end_page := some total }]
  | c :: d :: rest =>
    { c with end_page := some (d.start_page - 1) } :: assignEnds total (d :: rest)

/-!
Outline model.  The PyPDF2 outline is a list whose items are either
bookmark dictionaries or nested lists (app.py lines 284-310).  A leaf
carries the optional /Title and the already-resolved 0-based destination
page: resolution of /Page through IndirectObject search or int conversion
(app.py lines 292-304) happens against the external reader, so the model
stores its outcome, with none covering a missing /Page, an unresolvable
indirect reference, and a ValueError/TypeError during conversion, all of
which make the source drop the item.
-/

inductive OutlineItem where
  | leaf (title : Option (List Char)) (page : Option Int)
  | group (children : List OutlineItem)

mutual

/-- Embedding of process_outline_item (app.py lines 284-308) on a single
item: a list recurses one level deeper, a dictionary with a truthy title
and a resolved page emits one chapter with the page clamped into
[1, total]. -/
def process_outline_item (total : Int) : OutlineItem → Int → List Chapter
  | OutlineItem.leaf title page, level =>
    match title, page with
    | some t, some p =>
      if t ≠ [] then [⟨t, max 1 (min (p + 1) total), none, level⟩] else []
    | _, _ => []
  | OutlineItem.group children, level =>
    process_outline_list total children (level + 1)

/-- The for-loop of process_outline_item over the items of a nested list. -/
def process_outline_list (total : Int) : List OutlineItem → Int → List Chapter
  | [], _ => []
  | it :: rest, level =>
    process_outline_item total it level ++ process_outline_list total rest level

end

/-!
Document model: the data the code reads from the external fitz / PyPDF2
document objects, as fields.  pageBlocks is the get_text("dict") block,
line and span structure read by the formatting extractor (only the text of
each span is read by the code; size and boldness are carried so that the
specification claim about them can be stated).  headerText and footerText
are the top and bottom 12 percent clip extractions used by the label scan
and _page_contains_number.  nativeLabel is fitz Page.get_label (empty
string when absent).  pageLabels is the parsed /PageLabels number tree of
method B, none when the catalog has no such entry or parsing raised.
-/

structure TextSpan where
  text : List Char
  size : ℚ
  bold : Bool
deriving DecidableEq

inductive PageLabelStyle where
  | styleNone | styleD | styleRlow | styleRup | styleAlow | styleAup | styleOther
deriving DecidableEq

structure PdfDocument where
  totalPages : Nat
  outline : List OutlineItem
  pageBlocks : Nat → List (List (List TextSpan))
  pageText : Nat → List Char
  headerText : Nat → List Char
  footerText : Nat → List Char
  nativeLabel : Nat → List Char
  pageLabels : Option (List (Int × PageLabelStyle × List Char × Int))

/-- Embedding of extract_chapters_from_outline (app.py lines 275-318): the
top call passes the outline list at default level 1, so the items of the
top list are processed at level 2. -/
def extract_chapters_from_outline (doc : PdfDocument) : List Chapter :=
  match doc.outline with
  | [] => []
  | _ :: _ =>
    assignEnds (doc.totalPages : Int)
      (sortChapters (process_outline_list (doc.totalPages : Int) doc.outline 2))

/-!
The five title_patterns of extract_chapters_by_formatting (app.py lines
326-332), compiled by hand.  re.match anchors at the start only, and
re.IGNORECASE is set, which also makes the character classes A-Z and a-z
match both cases.  Greedy quantifiers need no backtracking here because
each quantified class is disjoint from the character that follows it.
-/

/-- Match one or more whitespace characters and return the remainder. -/
def takeWs1 (s : List Char) : Option (List Char) :=
  match s with
  | [] => none
  | x :: xs => if isPySpace x then some (xs.dropWhile isPySpace) else none

/-- Case-insensitive literal match (the literal is given lowercase),
returning the remainder. -/
def matchLiteralCI : List Char → List Char → Option (List Char)
  | [], s => some s
  | _ :: _, [] => none
  | c :: cr, x :: xs => if x.toLower = c then matchLiteralCI cr xs else none

/-- Pattern Capitolul then whitespace then a digit, anchored, ci. -/
def patCapitolul (t : List Char) : Bool :=
  match matchLiteralCI (cs "capitolul") t with
  | some r =>
    match takeWs1 r with
    | some r2 =>
      match r2 with
      | x :: _ => x.isDigit
      | [] => false
    | none => false
  | none => false

/-- Pattern Chapter then whitespace then a digit, anchored, ci. -/
def patChapter (t : List Char) : Bool :=
  match matchLiteralCI (cs "chapter") t with
  | some r =>
    match takeWs1 r with
    | some r2 =>
      match r2 with
      | x :: _ => x.isDigit
      | [] => false
    | none => false
  | none => false

/-- Pattern digits, a dot, whitespace, a letter (ci makes A-Z any case). -/
def patNumberDot (t : List Char) : Bool :=
  let d := t.takeWhile Char.isDigit
  if d.isEmpty then false
  else
    match t.drop d.length with
    | '.' :: r =>
      match takeWs1 r with
      | some r2 =>
        match r2 with
        | x :: _ => x.isAlpha
        | [] => false
      | none => false
    | _ => false

/-- Pattern roman characters, a dot, whitespace, anchored, ci. -/
def patRomanDot (t : List Char) : Bool :=
  let r := t.takeWhile isRomanChar
  if r.isEmpty then false
  else
    match t.drop r.length with
    | '.' :: rest => (takeWs1 rest).isSome
    | _ => false

/-- Pattern a letter, more letters, whitespace, a digit (ci makes both
letter classes any case). -/
def patTitleWord (t : List Char) : Bool :=
  match t with
  | [] => false
  | x :: xs =>
    if x.isAlpha then
      let ls := xs.takeWhile Char.isAlpha
      if ls.isEmpty then false
      else
        match takeWs1 (xs.drop ls.length) with
        | some r2 =>
          match r2 with
          | y :: _ => y.isDigit
          | [] => false
        | none => false
    else false

/-- Whether a line matches any of the five title_patterns of app.py. -/
def matchesAnyTitlePattern (t : List Char) : Bool :=
  patCapitolul t || patChapter t || patNumberDot t || patRomanDot t || patTitleWord t

/-- All spans of one page in reading order (blocks, then lines, then
spans), as walked by extract_chapters_by_formatting. -/
def pageSpans (doc : PdfDocument) (p : Nat) : List TextSpan :=
  (doc.pageBlocks p).flatMap (fun block => block.flatMap (fun line => line))

/-- The candidate-collection loops of extract_chapters_by_formatting
(app.py lines 334-351): a span whose stripped text is nonempty, longer
than 3 and shorter than 200 characters and matches one of the patterns
becomes a chapter at the 1-based page; the break after the first matching
pattern only stops the pattern loop. -/
def formattingCandidates (doc : PdfDocument) : List Chapter :=
  (List.range doc.totalPages).flatMap fun pageNum =>
    (doc.pageBlocks pageNum).flatMap fun block =>
      block.flatMap fun line =>
        line.filterMap fun span =>
          let text := pyStrip span.text
          if text ≠ [] ∧ 3 < text.length ∧ text.length < 200 ∧
              matchesAnyTitlePattern text = true then
            some ⟨text, (pageNum : Int) + 1, none, 1⟩
          else none

/-- Embedding of extract_chapters_by_formatting (app.py lines 320-367).
The font_threshold parameter is carried from the source but, exactly as in
the source, never read. -/
def extract_chapters_by_formatting (doc : PdfDocument) (font_threshold : ℚ) :
    List Chapter :=
  let _ := font_threshold
  assignEnds (doc.totalPages : Int)
    (sortChapters (dedupByKey (fun c => c.title) (formattingCandidates doc)))

/-!
Page-label infrastructure (app.py lines 98-269).
-/

/-- Whether the next character is not a word character, the lookahead of
the label-token regex of method C. -/
def nextNotWord : List Char → Bool
  | [] => true
  | c :: _ => !isWordChar c

/-- Whether the previous character allows a match start under a
not-a-word-character lookbehind. -/
def boundaryOkB : Option Char → Bool
  | none => true
  | some c => !isWordChar c

/-- Greedy-with-backtracking token length: try the longest length first
and shrink until the trailing lookahead holds. -/
def tryTokenLen (s : List Char) : Nat → Option (List Char)
  | 0 => none
  | Nat.succ k =>
    if nextNotWord (s.drop (k + 1)) then some (s.take (k + 1))
    else tryTokenLen s k

/-- Match one alternative of the method C token regex at the current
position: a run of class characters, between 1 and cap long, greedy, with
a not-a-word-character lookahead. -/
def labelTokenAtClass (p : Char → Bool) (cap : Nat) (s : List Char) :
    Option (List Char) :=
  tryTokenLen s (min (s.takeWhile p).length cap)

/-- Leftmost search of the method C label-token regex (app.py lines
176-179): at each boundary position try the roman alternative (up to 10
characters) first, then the digit alternative (up to 6). -/
def labelTokenSearchAux : Option Char → List Char → Option (List Char)
  | _, [] => none
  | prev, c :: rest =>
    let here :=
      if boundaryOkB prev then
        match labelTokenAtClass isRomanChar 10 (c :: rest) with
        | some tok => some tok
        | none => labelTokenAtClass Char.isDigit 6 (c :: rest)
      else none
    match here with
    | some tok => some tok
    | none => labelTokenSearchAux (some c) rest

/-- Leftmost match of the method C label-token regex. -/
def findFirstLabelToken (s : List Char) : Option (List Char) :=
  labelTokenSearchAux none s

/-- Method A of _build_label_map (app.py lines 110-121): register the fitz
page label of every page, lowercased form first, then the raw form. -/
def buildLabelMapA (doc : PdfDocument) : List (List Char × Int) :=
  (List.range doc.totalPages).foldl
    (fun m idx =>
      let label := doc.nativeLabel idx
      if label ≠ [] then
        dictInsert (dictInsert m ((pyStrip label).map Char.toLower) (idx : Int))
          (pyStrip label) (idx : Int)
      else m)
    []

/-- Rendering of one /PageLabels entry (app.py lines 143-156) for value n:
prefix plus the styled numeral. -/
def labelForStyle (style : PageLabelStyle) (preStr : List Char) (n : Int) :
    List Char :=
  match style with
  | PageLabelStyle.styleNone => preStr
  | PageLabelStyle.styleD => preStr ++ intToChars n
  | PageLabelStyle.styleRlow => preStr ++ (_int_to_roman n.toNat).map Char.toLower
  | PageLabelStyle.styleRup => preStr ++ (_int_to_roman n.toNat).map Char.toUpper
  | PageLabelStyle.styleAlow => preStr ++ (_int_to_alpha n.toNat).map Char.toLower
  | PageLabelStyle.styleAup => preStr ++ (_int_to_alpha n.toNat).map Char.toUpper
  | PageLabelStyle.styleOther => preStr ++ intToChars n

/-- Integer range as a list, embedding the Python range over page indices
of a /PageLabels entry. -/
def intRange (lo hi : Int) : List Int :=
  (List.range (hi - lo).toNat).map (fun k => lo + (k : Int))

/-- Method B of _build_label_map (app.py lines 124-161): each numbering
range runs from its start index to the start of the next range (or the
page count) and registers rendered labels, lowercased form first. -/
def buildLabelMapB (doc : PdfDocument)
    (ranges : List (Int × PageLabelStyle × List Char × Int)) :
    List (List Char × Int) :=
  (List.range ranges.length).foldl
    (fun m ri =>
      match ranges.get? ri with
      | none => m
      | some (startIdx, style, preStr, first) =>
        let endIdx : Int :=
          match ranges.get? (ri + 1) with
          | some r2 => r2.1
          | none => (doc.totalPages : Int)
        (intRange startIdx endIdx).foldl
          (fun m2 pdfIdx =>
            let label := labelForStyle style preStr (first + (pdfIdx - startIdx))
            dictInsert (dictInsert m2 ((pyStrip label).map Char.toLower) pdfIdx)
              (pyStrip label) pdfIdx)
          m)
    []

/-- Method C of _build_label_map (app.py lines 166-188): scan the stripped
header band then the stripped footer band of every page for the first
label token and setdefault the lowercased and raw forms. -/
def buildLabelMapC (doc : PdfDocument) : List (List Char × Int) :=
  (List.range doc.totalPages).foldl
    (fun m idx =>
      match findFirstLabelToken (pyStrip (doc.headerText idx)) with
      | some tok =>
        dictSetdefault (dictSetdefault m ((pyStrip tok).map Char.toLower) (idx : Int))
          (pyStrip tok) (idx : Int)
      | none =>
        match findFirstLabelToken (pyStrip (doc.footerText idx)) with
        | some tok =>
          dictSetdefault (dictSetdefault m ((pyStrip tok).map Char.toLower) (idx : Int))
            (pyStrip tok) (idx : Int)
        | none => m)
    []

/-- Embedding of _build_label_map (app.py lines 98-188): method A, then
method B when the catalog parse succeeded, then the heuristic scan; each
later method runs only when the earlier ones produced an empty map. -/
def _build_label_map (doc : PdfDocument) : List (List Char × Int) :=
  let mA := buildLabelMapA doc
  if mA ≠ [] then mA
  else
    match doc.pageLabels with
    | some ranges =>
      let mB := buildLabelMapB doc ranges
      if mB ≠ [] then mB else buildLabelMapC doc
    | none => buildLabelMapC doc

/-- Embedding of _page_contains_number (app.py lines 251-269): whether the
header or footer band of the page contains the decimal rendering of the
number with no adjacent digit on either side. -/
def prevNotDigit : Option Char → Bool
  | none => true
  | some c => !c.isDigit

/-- Whether the next character is not a digit, the trailing lookahead of
the standalone-number regex. -/
def nextNotDigit : List Char → Bool
  | [] => true
  | c :: _ => !c.isDigit

/-- Leftmost search of the standalone-number regex over one text band. -/
def csnAux (num : List Char) : Option Char → List Char → Bool
  | _, [] => false
  | prev, c :: rest =>
    (prevNotDigit prev && num.isPrefixOf (c :: rest) &&
      nextNotDigit ((c :: rest).drop num.length)) ||
    csnAux num (some c) rest

/-- Whether the text contains the token as a standalone number. -/
def containsStandaloneNum (num : List Char) (s : List Char) : Bool :=
  csnAux num none s

/-- Embedding of _page_contains_number (app.py lines 251-269). -/
def _page_contains_number (doc : PdfDocument) (pdfIdx : Int) (number : Int) :
    Bool :=
  let numStr := intToChars number
  containsStandaloneNum numStr (doc.headerText pdfIdx.toNat) ||
  containsStandaloneNum numStr (doc.footerText pdfIdx.toNat)

/-- First occurrence order of the keys of the offsets dict. -/
def firstOccurrences : List Int → List Int
  | [] => []
  | x :: xs => x :: (firstOccurrences xs).filter (fun y => y ≠ x)

/-- Embedding of Python max over dict keys with the count as key function:
the first key (in insertion order) attaining the maximal count. -/
def argmaxCount (keys : List Int) (l : List Int) : Int :=
  match keys with
  | [] => 0
  | k :: ks => ks.foldl (fun b k2 => if l.count b < l.count k2 then k2 else b) k

/-- Step 2 of _printed_page_to_pdf_index (app.py lines 212-216): the scan
of the label map for a key with the same decoded roman value. -/
def resolveRomanScan (labelMap : List (List Char × Int)) (printed : List Char) :
    Option Int :=
  match _roman_to_int printed with
  | some rv =>
    (labelMap.find? (fun pr => _roman_to_int pr.1 = some rv)).map (fun pr => pr.2)
  | none => none

/-- The bounds-and-containment check applied to each candidate page of the
arabic offset estimation (app.py lines 235-242). -/
def checkedCandidate (doc : PdfDocument) (arabic : Int) (cand : Int) : Option Int :=
  if 0 ≤ cand ∧ cand < (doc.totalPages : Int) ∧
      _page_contains_number doc cand arabic = true then
    some cand
  else none

/-- Step 3 of _printed_page_to_pdf_index (app.py lines 224-242): estimate
the modal offset over the integer-keyed entries of the label map, then
validate the candidate page and its neighbours up to distance 5. -/
def resolveArabicOffset (doc : PdfDocument) (labelMap : List (List Char × Int))
    (arabic : Int) : Option Int :=
  let offList := labelMap.filterMap (fun pr => (pyIntParse pr.1).map (fun lv => pr.2 - lv))
  if offList = [] then none
  else
    let best := argmaxCount (firstOccurrences offList) offList
    let candidate := arabic + best - 1
    match checkedCandidate doc arabic candidate with
    | some c => some c
    | none =>
      firstSome
        (fun delta =>
          firstSome (checkedCandidate doc arabic)
            [candidate - delta, candidate + delta])
        ([1, 2, 3, 4, 5] : List Int)

/-- Step 4 of _printed_page_to_pdf_index (app.py lines 245-247): the full
linear scan for a page containing the number. -/
def resolveArabicScan (doc : PdfDocument) (arabic : Int) : Option Int :=
  firstSome
    (fun (idx : Nat) =>
      if _page_contains_number doc (idx : Int) arabic = true then
        some ((idx : Int))
      else none)
    (List.range doc.totalPages)

/-- Embedding of _printed_page_to_pdf_index (app.py lines 190-249): direct
lookup, roman-value scan, arabic offset estimation validated against the
page bands, then a full linear scan. -/
def _printed_page_to_pdf_index (doc : PdfDocument)
    (labelMap : List (List Char × Int)) (printed0 : List Char) : Option Int :=
  let printed := pyStrip printed0
  let printedLower := printed.map Char.toLower
  match dictLookup labelMap printedLower with
  | some idx => some idx
  | none =>
  match dictLookup labelMap printed with
  | some idx => some idx
  | none =>
  match resolveRomanScan labelMap printed with
  | some idx => some idx
  | none =>
  match pyIntParse printed with
  | none => none
  | some arabic =>
    match resolveArabicOffset doc labelMap arabic with
    | some c => some c
    | none => resolveArabicScan doc arabic

/-!
Table-of-contents extractor (app.py lines 369-500).
-/

/-- The word sequences of the contents-heading regex alternatives
(app.py lines 380-383), lowercase; words are separated by whitespace runs
where the pattern uses an explicit whitespace quantifier. -/
def tocHeadingAlternatives : List (List (List Char)) :=
  [[cs "cuprins"], [cs "contents"], [cs "table", cs "of", cs "contents"],
   [cs "tabla", cs "de", cs "materii"]]

/-- Case-insensitive match of a word sequence separated by whitespace
runs, returning the remainder. -/
def matchWordSeqCI : List (List Char) → List Char → Option (List Char)
  | [], s => some s
  | [w], s => matchLiteralCI w s
  | w :: ws, s =>
    match matchLiteralCI w s with
    | some r =>
      match takeWs1 r with
      | some r2 => matchWordSeqCI ws r2
      | none => none
    | none => none

/-- Whether a contents-heading alternative matches at this position with
its trailing word boundary. -/
def tocHeadingAt (s : List Char) : Bool :=
  tocHeadingAlternatives.any fun words =>
    match matchWordSeqCI words s with
    | some rest => nextNotWord rest
    | none => false

/-- Scan for the contents-heading regex: a position qualifies when the
previous character is not a word character (the leading word boundary of
the pattern; every alternative starts with a letter). -/
def tocHeadingSearchAux : Option Char → List Char → Bool
  | _, [] => false
  | prev, c :: rest =>
    (boundaryOkB prev && tocHeadingAt (c :: rest)) ||
    tocHeadingSearchAux (some c) rest

/-- Embedding of toc_heading_re.search of app.py line 403. -/
def toc_heading_search (s : List Char) : Bool := tocHeadingSearchAux none s

/-- Count the maximal runs of dots of length at least minLen (the number
of findall matches of a greedy dot-run regex); run is the length of the
dot run currently being read. -/
def cdrAux (minLen : Nat) (run : Nat) : List Char → Nat
  | [] => if minLen ≤ run ∧ 0 < run then 1 else 0
  | c :: rest =>
    if c = '.' then cdrAux minLen (run + 1) rest
    else (if minLen ≤ run ∧ 0 < run then 1 else 0) + cdrAux minLen 0 rest

/-- Number of maximal dot runs of length at least minLen. -/
def countDotRuns (minLen : Nat) (s : List Char) : Nat := cdrAux minLen 0 s

/-- Step 1 of extract_chapters_by_table_of_contents (app.py lines
397-415): scan the first pages for a contents heading, falling back to
pages dense with leader dots. -/
def tocPdfPages (doc : PdfDocument) : List Nat :=
  let scanLimit := min doc.totalPages (max 20 (doc.totalPages / 5))
  let byHeading :=
    (List.range scanLimit).filter (fun i => toc_heading_search (doc.pageText i))
  if byHeading ≠ [] then byHeading
  else (List.range scanLimit).filter (fun i => 3 ≤ countDotRuns 3 (doc.pageText i))

/-- Set insertion used for pages_to_scan. -/
def setInsert (acc : List Nat) (x : Nat) : List Nat :=
  if x ∈ acc then acc else acc ++ [x]

/-- The inner delta loop of step 2 (app.py lines 421-432): extend up to 4
pages past a found contents page while the pages keep looking like a
contents page; rem counts the remaining deltas. -/
def extendStep (doc : PdfDocument) (p : Nat) :
    Nat → Nat → List Nat → List Nat
  | 0, _, acc => acc
  | Nat.succ rem, delta, acc =>
    let nxt := p + delta
    if doc.totalPages ≤ nxt then acc
    else
      let txt := doc.pageText nxt
      if 2 ≤ countDotRuns 2 txt || toc_heading_search txt then
        extendStep doc p rem (delta + 1) (setInsert acc nxt)
      else acc

/-- Step 2 of extract_chapters_by_table_of_contents: the page set to scan,
in insertion order (the found pages are already ascending). -/
def tocPagesToScan (doc : PdfDocument) : List Nat :=
  (tocPdfPages doc).foldl (fun acc p => extendStep doc p 4 1 acc) (tocPdfPages doc)

/-- Separator class of the toc_line_re of app.py line 388: whitespace,
dot, dash, en dash, em dash, underscore. -/
def sepClass (c : Char) : Bool :=
  isPySpace c || c = '.' || c = '-' || c = '–' || c = '—' || c = '_'

/-- The trailing page token of toc_line_re: a roman-character run of 1 to
10 characters or a digit run of 1 to 6, followed only by whitespace.  Only
the maximal class run can match, because a shorter take leaves a class
character where only whitespace may follow. -/
def tokenTailMatch (rest : List Char) : Option (List Char) :=
  let r := rest.takeWhile isRomanChar
  if 1 ≤ r.length ∧ r.length ≤ 10 ∧ (rest.drop r.length).all isPySpace then
    some r
  else
    let d := rest.takeWhile Char.isDigit
    if 1 ≤ d.length ∧ d.length ≤ 6 ∧ (rest.drop d.length).all isPySpace then
      some d
    else none

/-- The separator-and-token tail of toc_line_re: a maximal separator run
of length at least 2 (shorter takes would start the token on a separator
character, which is in neither token class), then the token. -/
def tocSepTokenMatch (tail : List Char) : Option (List Char) :=
  let sep := tail.takeWhile sepClass
  if 2 ≤ sep.length then tokenTailMatch (tail.drop sep.length) else none

/-- Lazy title search of toc_line_re: grow the title one character at a
time (the lazy one-or-more), trying the separator-and-token tail after
each character. -/
def tlmAux (title : List Char) : List Char → Option (List Char × List Char)
  | [] => none
  | c :: rest =>
    match tocSepTokenMatch rest with
    | some tok => some (title ++ [c], tok)
    | none => tlmAux (title ++ [c]) rest

/-- Embedding of toc_line_re.match (app.py lines 386-391) returning the
title group and the page-token group. -/
def tocLineMatch (line : List Char) : Option (List Char × List Char) :=
  tlmAux [] line

/-- The title strip set of app.py line 450; the Python literal contains a
backslash because the backslash-dash pair in a plain string is kept
verbatim. -/
def titleStripChar (c : Char) : Bool :=
  c = ' ' || c = '.' || c = '\\' || c = '-' || c = '–' || c = '—' || c = '_'

/-- Step 3 of extract_chapters_by_table_of_contents (app.py lines
437-453): parse every stripped nonempty line of every scanned page and
keep the pairs whose stripped title and token are nonempty. -/
def tocRawEntries (doc : PdfDocument) : List (List Char × List Char) :=
  (List.insertionSort (fun a b => a ≤ b) (tocPagesToScan doc)).flatMap fun idx =>
    (splitOnChar '\n' (doc.pageText idx)).flatMap fun line0 =>
      let line := pyStrip line0
      if line = [] then []
      else
        match tocLineMatch line with
        | some pr =>
          let title := stripChars titleStripChar pr.1
          let tok := pyStrip pr.2
          if title ≠ [] ∧ tok ≠ [] then [(title, tok)] else []
        | none => []

/-- Step 4 of extract_chapters_by_table_of_contents (app.py lines
458-477): resolve each token (arabic interpretation first, then roman)
through the label map built at construction and keep in-range pages. -/
def tocResolvedChapters (doc : PdfDocument) : List Chapter :=
  let labelMap := _build_label_map doc
  (tocRawEntries doc).flatMap fun e =>
    let arabicHit : Option Int :=
      match pyIntParse e.2 with
      | some _ => _printed_page_to_pdf_index doc labelMap e.2
      | none => none
    let pdfIdx : Option Int :=
      match arabicHit with
      | some i => some i
      | none =>
        if (_roman_to_int e.2).isSome then
          _printed_page_to_pdf_index doc labelMap e.2
        else none
    match pdfIdx with
    | some i =>
      if 1 ≤ i + 1 ∧ i + 1 ≤ (doc.totalPages : Int) then
        [⟨e.1, i + 1, none, 1⟩]
      else []
    | none => []

/-- Step 5 deduplication of extract_chapters_by_table_of_contents
(app.py lines 482-488), keyed on title and start page. -/
def tocUniqueChapters (doc : PdfDocument) : List Chapter :=
  dedupByKey (fun c => (c.title, c.start_page)) (tocResolvedChapters doc)

/-- Embedding of extract_chapters_by_table_of_contents (app.py lines
369-500): empty when no contents page is found or fewer than 2 entries
survive deduplication; otherwise the sorted sequence with end pages. -/
def extract_chapters_by_table_of_contents (doc : PdfDocument) : List Chapter :=
  if tocPdfPages doc = [] then []
  else if (tocUniqueChapters doc).length < 2 then []
  else assignEnds (doc.totalPages : Int) (sortChapters (tocUniqueChapters doc))

/-!
Merging, simple detection and the pipeline (app.py lines 506-590).
-/

/-- Embedding of merge_chapters (app.py lines 506-532): concatenate,
deduplicate on title and start page, sort by start page, assign end
pages.  An empty list of lists returns empty at once. -/
def merge_chapters (chapters_list : List (List Chapter)) (total : Int) :
    List Chapter :=
  match chapters_list with
  | [] => []
  | _ :: _ =>
    assignEnds total
      (sortChapters
        (dedupByKey (fun c => (c.title, c.start_page)) chapters_list.flatten))

/-- Keyword list of simple_chapter_detection (app.py line 562). -/
def chapterKeywords : List (List Char) :=
  [cs "capitol", cs "chapter", cs "secțiune", cs "section", cs "part"]

/-- The candidate loop of simple_chapter_detection (app.py lines 564-574):
scan the first 5 lines of the first 500 characters of each page; a line
that contains a keyword (lowercased, stripped) and whose raw length is
strictly between 5 and 200 yields one chapter whose title is its first 50
characters stripped. -/
def simpleCandidates (doc : PdfDocument) : List Chapter :=
  (List.range doc.totalPages).flatMap fun pageNum =>
    ((splitOnChar '\n' ((doc.pageText pageNum).take 500)).take 5).flatMap fun line =>
      let lineLower := pyStrip (line.map Char.toLower)
      if (chapterKeywords.any fun kw => listHasInfix kw lineLower) = true ∧
          5 < line.length ∧ line.length < 200 then
        [⟨pyStrip (line.take 50), (pageNum : Int) + 1, none, 1⟩]
      else []

/-- Embedding of simple_chapter_detection (app.py lines 557-590):
candidates deduplicated by start page, sorted, with end pages assigned. -/
def simple_chapter_detection (doc : PdfDocument) : List Chapter :=
  assignEnds (doc.totalPages : Int)
    (sortChapters (dedupByKey (fun c => c.start_page) (simpleCandidates doc)))

/-- The merged result of the three extractors inside detect_chapters
(app.py line 548), in source order: outline, formatting (with the default
font_threshold 0.8), table of contents. -/
def detectMerged (doc : PdfDocument) : List Chapter :=
  merge_chapters
    [extract_chapters_from_outline doc,
     extract_chapters_by_formatting doc (4 / 5 : ℚ),
     extract_chapters_by_table_of_contents doc]
    (doc.totalPages : Int)

/-- Embedding of detect_chapters (app.py lines 534-555): the merged
result, or simple_chapter_detection when the merge is empty. -/
def detect_chapters (doc : PdfDocument) : List Chapter :=
  if detectMerged doc = [] then simple_chapter_detection doc
  else detectMerged doc

/-- All spans of the document in reading order. -/
def docSpans (doc : PdfDocument) : List TextSpan :=
  (List.range doc.totalPages).flatMap fun p => pageSpans doc p

/-- Modelled from the spec: the code of extract_chapters_by_formatting has
no median computation, so the document-wide median font size named by the
specification (all runs with a usable size attribute, default 12 when none
exist) is defined here from the words of the specification, for stating
the claim about the heading heuristic. -/
def medianFontSize (doc : PdfDocument) : ℚ :=
  let sizes := List.insertionSort (fun a b => a ≤ b) ((docSpans doc).map (fun s => s.size))
  match sizes with
  | [] => 12
  | _ :: _ =>
    if sizes.length % 2 = 1 then sizes.getD (sizes.length / 2) 0
    else (sizes.getD (sizes.length / 2 - 1) 0 + sizes.getD (sizes.length / 2) 0) / 2

/-!
Declarative material for the roman-numeral theorems: the grammar of the
validation regex as an explicit decomposition, the digit components
produced by the greedy encoder, and the value of each component.
-/

/-- Declarative form of the roman-numeral grammar of _ROMAN_RE on
uppercase text: a nonempty concatenation of one string from each group
(each possibly empty). -/
def canonicalRoman (t : List Char) : Prop :=
  t ≠ [] ∧
  ∃ a ∈ ([] :: romanMCands), ∃ b ∈ ([] :: romanHCands),
  ∃ c ∈ ([] :: romanTCands), ∃ d ∈ ([] :: romanUCands),
    t = a ++ (b ++ (c ++ d))

/-- Thousands component written by the greedy encoder for a digit. -/
def romanMDigit : Nat → List Char
  | 1 => cs "M"
  | 2 => cs "MM"
  | 3 => cs "MMM"
  | _ => []

/-- Hundreds component written by the greedy encoder for a digit. -/
def romanHDigit : Nat → List Char
  | 1 => cs "C"
  | 2 => cs "CC"
  | 3 => cs "CCC"
  | 4 => cs "CD"
  | 5 => cs "D"
  | 6 => cs "DC"
  | 7 => cs "DCC"
  | 8 => cs "DCCC"
  | 9 => cs "CM"
  | _ => []

/-- Tens component written by the greedy encoder for a digit. -/
def romanTDigit : Nat → List Char
  | 1 => cs "X"
  | 2 => cs "XX"
  | 3 => cs "XXX"
  | 4 => cs "XL"
  | 5 => cs "L"
  | 6 => cs "LX"
  | 7 => cs "LXX"
  | 8 => cs "LXXX"
  | 9 => cs "XC"
  | _ => []

/-- Units component written by the greedy encoder for a digit. -/
def romanUDigit : Nat → List Char
  | 1 => cs "I"
  | 2 => cs "II"
  | 3 => cs "III"
  | 4 => cs "IV"
  | 5 => cs "V"
  | 6 => cs "VI"
  | 7 => cs "VII"
  | 8 => cs "VIII"
  | 9 => cs "IX"
  | _ => []

/-- Thousands candidates with their loop values. -/
def romanMPairs : List (List Char × Int) :=
  [(cs "MMMM", 4000), (cs "MMM", 3000), (cs "MM", 2000), (cs "M", 1000)]

/-- Hundreds candidates with their loop values. -/
def romanHPairs : List (List Char × Int) :=
  [(cs "CM", 900), (cs "CD", 400), (cs "DCCC", 800), (cs "DCC", 700),
   (cs "DC", 600), (cs "D", 500), (cs "CCC", 300), (cs "CC", 200), (cs "C", 100)]

/-- Tens candidates with their loop values. -/
def romanTPairs : List (List Char × Int) :=
  [(cs "XC", 90), (cs "XL", 40), (cs "LXXX", 80), (cs "LXX", 70),
   (cs "LX", 60), (cs "L", 50), (cs "XXX", 30), (cs "XX", 20), (cs "X", 10)]

/-- Units candidates with their loop values. -/
def romanUPairs : List (List Char × Int) :=
  [(cs "IX", 9), (cs "IV", 4), (cs "VIII", 8), (cs "VII", 7),
   (cs "VI", 6), (cs "V", 5), (cs "III", 3), (cs "II", 2), (cs "I", 1)]

/-- Loop value of the first character of a suffix (0 for the empty
suffix): the prev seen by the loop when it crosses into the text to the
left of that suffix. -/
def headVal : List Char → Int
  | [] => 0
  | c :: _ => romanVal c

/-!
Concrete inputs used by the counterexamples and witnesses below.
-/

/-- Two candidates on distinct pages, for exercising merge_chapters. -/
def sampleChapters : List Chapter :=
  [⟨cs "Alpha", 1, none, 1⟩, ⟨cs "Beta", 5, none, 1⟩]

/-- Two candidates sharing a start page with different titles. -/
def tiedChapters : List Chapter :=
  [⟨cs "Gamma", 3, none, 1⟩, ⟨cs "Delta", 3, none, 1⟩]

/-- A document whose outline nests one bookmark below another. -/
def outlineDoc : PdfDocument where
  totalPages := 10
  outline :=
    [OutlineItem.leaf (some (cs "A")) (some 0),
     OutlineItem.group [OutlineItem.leaf (some (cs "B")) (some 1)]]
  pageBlocks := fun _ => []
  pageText := fun _ => []
  headerText := fun _ => []
  footerText := fun _ => []
  nativeLabel := fun _ => []
  pageLabels := none

/-- A document with a single small, non-bold span reading Chapter 1. -/
def fmtDoc : PdfDocument where
  totalPages := 1
  outline := []
  pageBlocks := fun _ => [[[⟨cs "Chapter 1", 10, false⟩]]]
  pageText := fun _ => []
  headerText := fun _ => []
  footerText := fun _ => []
  nativeLabel := fun _ => []
  pageLabels := none

/-- A one-page document whose only text is the word hello: every extractor
and the keyword fallback find nothing in it. -/
def plainDoc : PdfDocument where
  totalPages := 1
  outline := []
  pageBlocks := fun _ => []
  pageText := fun _ => cs "hello"
  headerText := fun _ => []
  footerText := fun _ => []
  nativeLabel := fun _ => []
  pageLabels := none

/-- A zero-page document. -/
def emptyDoc : PdfDocument where
  totalPages := 0
  outline := []
  pageBlocks := fun _ => []
  pageText := fun _ => []
  headerText := fun _ => []
  footerText := fun _ => []
  nativeLabel := fun _ => []
  pageLabels := none

/-- A ten-page document with no text, used with an explicit label map. -/
def tenPageDoc : PdfDocument where
  totalPages := 10
  outline := []
  pageBlocks := fun _ => []
  pageText := fun _ => []
  headerText := fun _ => []
  footerText := fun _ => []
  nativeLabel := fun _ => []
  pageLabels := none

/-- A label map sending the printed label iv to physical index 3. -/
def sampleLabelMap : List (List Char × Int) := [(cs "iv", 3)]

/-- Occurrence of a bookmark with a given title and resolved page anywhere
in an outline item, at any nesting depth. -/
inductive OccursInItem (t : List Char) (p : Int) : OutlineItem → Prop where
  | self : OccursInItem t p (OutlineItem.leaf (some t) (some p))
  | child (it : OutlineItem) (children : List OutlineItem) :
      it ∈ children → OccursInItem t p it →
      OccursInItem t p (OutlineItem.group children)

/-!
Theorems.  General lemmas about the shared loops come first, then one
theorem per claim with its counterexample and witness where required.
-/

theorem firstSome_eq_some {α β : Type} (f : α → Option β) (l : List α) (b : β)
    (h : firstSome f l = some b) : ∃ a ∈ l, f a = some b := by
  induction l with
  | nil => simp [firstSome] at h
  | cons a rest ih =>
    rw [firstSome] at h
    rcases hfa : f a with _ | v
    · rw [hfa] at h
      obtain ⟨a2, ha2, hv⟩ := ih h
      exact ⟨a2, List.mem_cons_of_mem _ ha2, hv⟩
    · rw [hfa] at h
      exact ⟨a, List.mem_cons_self _ _, hfa.trans h⟩

theorem dictLookup_mem (m : List (List Char × Int)) (k : List Char) (v : Int)
    (h : dictLookup m k = some v) : (k, v) ∈ m := by
  unfold dictLookup at h
  rcases hf : m.find? (fun p => p.1 = k) with _ | pr
  · rw [hf] at h; simp at h
  · rw [hf] at h
    simp at h
    have hk : pr.1 = k := by
      have := List.find?_some hf
      simpa using this
    have hm : pr ∈ m := List.mem_of_find?_eq_some hf
    have : pr = (k, v) := by
      cases pr
      simp_all
    rwa [this] at hm

theorem dedupByKeyAux_sublist {κ : Type} [DecidableEq κ] (key : Chapter → κ) :
    ∀ (seen : List κ) (l : List Chapter), List.Sublist (dedupByKeyAux key seen l) l := by
  intro seen l
  induction l generalizing seen with
  | nil => simp [dedupByKeyAux]
  | cons c rest ih =>
    rw [dedupByKeyAux]
    split
    · exact (ih seen).cons c
    · exact (ih _).cons₂ c

theorem dedupByKey_sublist {κ : Type} [DecidableEq κ] (key : Chapter → κ)
    (l : List Chapter) : List.Sublist (dedupByKey key l) l :=
  dedupByKeyAux_sublist key [] l

theorem assignEnds_map_tsl (total : Int) :
    ∀ l : List Chapter,
      (assignEnds total l).map (fun c => (c.title, c.start_page, c.level)) =
        l.map (fun c => (c.title, c.start_page, c.level))
  | [] => rfl
  | [c] => rfl
  | c :: d :: rest => by
    have ih := assignEnds_map_tsl total (d :: rest)
    simp only [assignEnds, List.map_cons]
    rw [ih, List.map_cons]

theorem assignEnds_map_start (total : Int) (l : List Chapter) :
    (assignEnds total l).map (fun c => c.start_page) = l.map (fun c => c.start_page) := by
  have h := assignEnds_map_tsl total l
  have h1 : (assignEnds total l).map (fun c => c.start_page) =
      ((assignEnds total l).map (fun c => (c.title, c.start_page, c.level))).map
        (fun pr => pr.2.1) := by
    simp [List.map_map]
  rw [h1, h]
  simp [List.map_map]

theorem assignEnds_length (total : Int) (l : List Chapter) :
    (assignEnds total l).length = l.length := by
  have h := assignEnds_map_start total l
  have := congrArg List.length h
  simpa using this

theorem assignEnds_head (total : Int) (x : Chapter) (xs : List Chapter) :
    ∃ y ys, assignEnds total (x :: xs) = y :: ys ∧
      y.start_page = x.start_page ∧ y.title = x.title ∧ y.level = x.level := by
  cases xs with
  | nil => exact ⟨_, _, rfl, rfl, rfl, rfl⟩
  | cons d rest => exact ⟨_, _, rfl, rfl, rfl, rfl⟩

theorem assignEnds_adjacent (total : Int) :
    ∀ (l : List Chapter) (i : Nat) (c d : Chapter),
      (assignEnds total l)[i]? = some c → (assignEnds total l)[i + 1]? = some d →
      c.end_page = some (d.start_page - 1)
  | [], i, c, d => by intro h _; simp [assignEnds] at h
  | [x], i, c, d => by
    intro h1 h2
    rcases i with _ | j
    · simp [assignEnds] at h2
    · simp [assignEnds] at h1
  | x :: y :: rest, i, c, d => by
    intro h1 h2
    rcases i with _ | j
    · rw [show assignEnds total (x :: y :: rest) =
          { x with end_page := some (y.start_page - 1) } :: assignEnds total (y :: rest)
          from rfl] at h1 h2
      simp only [List.getElem?_cons_zero, Option.some.injEq] at h1
      obtain ⟨z, zs, hz, hzs, _, _⟩ := assignEnds_head total y rest
      rw [hz] at h2
      simp only [List.getElem?_cons_succ, List.getElem?_cons_zero, Option.some.injEq] at h2
      rw [← h1, ← h2]
      simp [hzs]
    · rw [show assignEnds total (x :: y :: rest) =
          { x with end_page := some (y.start_page - 1) } :: assignEnds total (y :: rest)
          from rfl] at h1 h2
      simp only [List.getElem?_cons_succ] at h1 h2
      exact assignEnds_adjacent total (y :: rest) j c d h1 h2

theorem assignEnds_last (total : Int) :
    ∀ (l : List Chapter) (c : Chapter),
      (assignEnds total l).getLast? = some c → c.end_page = some total
  | [], c => by intro h; simp [assignEnds] at h
  | [x], c => by
    intro h
    simp [assignEnds] at h
    rw [← h]
  | x :: y :: rest, c => by
    intro h
    rw [show assignEnds total (x :: y :: rest) =
        { x with end_page := some (y.start_page - 1) } :: assignEnds total (y :: rest)
        from rfl] at h
    obtain ⟨z, zs, hz, _, _, _⟩ := assignEnds_head total y rest
    rw [hz] at h
    rw [List.getLast?_cons_cons] at h
    rw [← hz] at h
    exact assignEnds_last total (y :: rest) c h

theorem assignEnds_end_ge (total : Int) :
    ∀ l : List Chapter,
      List.Pairwise (fun a b => a.start_page < b.start_page) l →
      (∀ c ∈ l, c.start_page ≤ total) →
      ∀ c ∈ assignEnds total l, ∃ e, c.end_page = some e ∧ c.start_page ≤ e
  | [] => by intro _ _ c hc; simp [assignEnds] at hc
  | [x] => by
    intro _ hb c hc
    simp [assignEnds] at hc
    subst hc
    exact ⟨total, rfl, hb x (List.mem_singleton_self x)⟩
  | x :: y :: rest => by
    intro hs hb c hc
    rw [show assignEnds total (x :: y :: rest) =
        { x with end_page := some (y.start_page - 1) } :: assignEnds total (y :: rest)
        from rfl] at hc
    rcases List.mem_cons.mp hc with hc | hc
    · subst hc
      refine ⟨y.start_page - 1, rfl, ?_⟩
      have hxy : x.start_page < y.start_page :=
        (List.pairwise_cons.mp hs).1 y (List.mem_cons_self _ _)
      show x.start_page ≤ y.start_page - 1
      omega
    · exact assignEnds_end_ge total (y :: rest) (List.pairwise_cons.mp hs).2
        (fun c2 hc2 => hb c2 (List.mem_cons_of_mem _ hc2)) c hc

theorem mem_of_mem_assignEnds (total : Int) (l : List Chapter) (c2 : Chapter)
    (h : c2 ∈ assignEnds total l) :
    ∃ c ∈ l, c.title = c2.title ∧ c.start_page = c2.start_page ∧ c.level = c2.level := by
  have hmap := assignEnds_map_tsl total l
  have : (c2.title, c2.start_page, c2.level) ∈
      l.map (fun c => (c.title, c.start_page, c.level)) := by
    rw [← hmap]
    exact List.mem_map_of_mem _ h
  obtain ⟨c, hc, heq⟩ := List.mem_map.mp this
  have h3 : c.title = c2.title ∧ c.start_page = c2.start_page ∧ c.level = c2.level := by
    simpa using heq
  exact ⟨c, hc, h3.1, h3.2.1, h3.2.2⟩

theorem mem_assignEnds_of_mem (total : Int) (l : List Chapter) (c : Chapter)
    (h : c ∈ l) :
    ∃ c2 ∈ assignEnds total l,
      c2.title = c.title ∧ c2.start_page = c.start_page ∧ c2.level = c.level := by
  have hmap := assignEnds_map_tsl total l
  have : (c.title, c.start_page, c.level) ∈
      (assignEnds total l).map (fun c => (c.title, c.start_page, c.level)) := by
    rw [hmap]
    exact List.mem_map_of_mem _ h
  obtain ⟨c2, hc2, heq⟩ := List.mem_map.mp this
  have h3 : c2.title = c.title ∧ c2.start_page = c.start_page ∧ c2.level = c.level := by
    simpa using heq
  exact ⟨c2, hc2, h3.1, h3.2.1, h3.2.2⟩

theorem sortChapters_perm (l : List Chapter) : List.Perm (sortChapters l) l :=
  List.perm_insertionSort chapterLe l

theorem sortChapters_sorted (l : List Chapter) :
    List.Pairwise chapterLe (sortChapters l) :=
  List.sorted_insertionSort chapterLe l

theorem pairwise_on_start_iff (R : Int → Int → Prop) (l : List Chapter) :
    List.Pairwise (fun a b : Chapter => R a.start_page b.start_page) l ↔
      List.Pairwise R (l.map (fun c => c.start_page)) := by
  induction l with
  | nil => simp
  | cons c rest ih =>
    simp only [List.map_cons, List.pairwise_cons, ih]
    constructor
    · rintro ⟨h1, h2⟩
      refine ⟨?_, h2⟩
      intro b hb
      obtain ⟨c2, hc2, rfl⟩ := List.mem_map.mp hb
      exact h1 c2 hc2
    · rintro ⟨h1, h2⟩
      exact ⟨fun c2 hc2 => h1 _ (List.mem_map_of_mem _ hc2), h2⟩

/-- Claim C1 (amended): for every list of candidate lists, merge_chapters
returns a sequence sorted ascending by start_page in which every chapter
but the last has end_page equal to the start_page of its successor minus
one (not equal to the start_page of the successor), and the last chapter
has end_page equal to the total page count; under the inclusive 1-based
page convention of the code the ranges are therefore contiguous. -/
theorem merge_chapters_structure (lists : List (List Chapter)) (total : Int) :
    List.Pairwise chapterLe (merge_chapters lists total) ∧
    (∀ (i : Nat) (c d : Chapter),
      (merge_chapters lists total)[i]? = some c →
      (merge_chapters lists total)[i + 1]? = some d →
      c.end_page = some (d.start_page - 1)) ∧
    (∀ c, (merge_chapters lists total).getLast? = some c →
      c.end_page = some total) := by
  match lists with
  | [] =>
    refine ⟨List.Pairwise.nil, ?_, ?_⟩
    · intro i c d h _
      simp [merge_chapters] at h
    · intro c h
      simp [merge_chapters] at h
  | l0 :: ls =>
    have hmerge : merge_chapters (l0 :: ls) total =
        assignEnds total
          (sortChapters
            (dedupByKey (fun c => (c.title, c.start_page)) (l0 :: ls).flatten)) := rfl
    set D := dedupByKey (fun c => (c.title, c.start_page)) (l0 :: ls).flatten with hD
    refine ⟨?_, ?_, ?_⟩
    · rw [hmerge]
      have hsorted : List.Pairwise (fun a b : Chapter =>
          a.start_page ≤ b.start_page) (sortChapters D) := sortChapters_sorted D
      have h1 := (pairwise_on_start_iff (fun a b => a ≤ b) (sortChapters D)).mp hsorted
      rw [← assignEnds_map_start total (sortChapters D)] at h1
      exact (pairwise_on_start_iff (fun a b => a ≤ b) _).mpr h1
    · intro i c d h1 h2
      rw [hmerge] at h1 h2
      exact assignEnds_adjacent total (sortChapters D) i c d h1 h2
    · intro c h
      rw [hmerge] at h
      exact assignEnds_last total (sortChapters D) c h

/-- Claim C1 counterexample: with candidates starting at pages 1 and 5 and
10 total pages, the merger gives the first chapter end page 4, not the 5
required by the claim that end_page equals the start_page of the next
chapter. -/
theorem merge_chapters_structure_counterexample :
    ¬ (∀ (i : Nat) (c d : Chapter),
        (merge_chapters [sampleChapters] 10)[i]? = some c →
        (merge_chapters [sampleChapters] 10)[i + 1]? = some d →
        c.end_page = some d.start_page) := by
  intro h
  have := h 0 ⟨cs "Alpha", 1, some 4, 1⟩ ⟨cs "Beta", 5, some 10, 1⟩
    (by decide) (by decide)
  exact absurd this (by decide)

/-- Claim C1 witness: the amended theorem applied to the concrete
candidate lists. -/
theorem merge_chapters_structure_witness :
    List.Pairwise chapterLe (merge_chapters [sampleChapters] 10) ∧
    (⟨cs "Alpha", 1, some 4, 1⟩ : Chapter).end_page =
      some ((⟨cs "Beta", 5, some 10, 1⟩ : Chapter).start_page - 1) ∧
    (⟨cs "Beta", 5, some 10, 1⟩ : Chapter).end_page = some 10 :=
  ⟨(merge_chapters_structure [sampleChapters] 10).1,
   (merge_chapters_structure [sampleChapters] 10).2.1 0 _ _ (by decide) (by decide),
   (merge_chapters_structure [sampleChapters] 10).2.2 _ (by decide)⟩

/-- Claim C7 (amended): every chapter returned by merge_chapters has
end_page at least start_page, provided the deduplicated candidates have
pairwise distinct start pages and every candidate starts at or before the
total page count; two surviving candidates sharing a start page make the
earlier one receive end_page equal to start_page minus one. -/
theorem merge_chapters_end_ge (lists : List (List Chapter)) (total : Int)
    (hnodup : ((dedupByKey (fun c => (c.title, c.start_page)) lists.flatten).map
      (fun c => c.start_page)).Nodup)
    (hbound : ∀ c ∈ lists.flatten, c.start_page ≤ total) :
    ∀ c ∈ merge_chapters lists total,
      ∃ e, c.end_page = some e ∧ c.start_page ≤ e := by
  match lists with
  | [] => intro c hc; simp [merge_chapters] at hc
  | l0 :: ls =>
    intro c hc
    have hmerge : merge_chapters (l0 :: ls) total =
        assignEnds total
          (sortChapters
            (dedupByKey (fun c => (c.title, c.start_page)) (l0 :: ls).flatten)) := rfl
    set D := dedupByKey (fun c => (c.title, c.start_page)) (l0 :: ls).flatten with hD
    rw [hmerge] at hc
    have hperm := sortChapters_perm D
    have hnd2 : ((sortChapters D).map (fun c => c.start_page)).Nodup :=
      ((hperm.map (fun c => c.start_page)).nodup_iff).mpr hnodup
    have hnd3 : List.Pairwise (fun a b : Int => a ≠ b)
        ((sortChapters D).map (fun c => c.start_page)) := hnd2
    have hne : List.Pairwise (fun a b : Chapter => a.start_page ≠ b.start_page)
        (sortChapters D) := (pairwise_on_start_iff (fun a b => a ≠ b) _).mpr hnd3
    have hle : List.Pairwise (fun a b : Chapter =>
        a.start_page ≤ b.start_page) (sortChapters D) := sortChapters_sorted D
    have hlt : List.Pairwise (fun a b : Chapter => a.start_page < b.start_page)
        (sortChapters D) :=
      (hle.and hne).imp (fun h => lt_of_le_of_ne h.1 h.2)
    have hb2 : ∀ c2 ∈ sortChapters D, c2.start_page ≤ total := by
      intro c2 hc2
      have : c2 ∈ D := hperm.mem_iff.mp hc2
      exact hbound c2 ((dedupByKey_sublist _ _).mem this)
    exact assignEnds_end_ge total (sortChapters D) hlt hb2 c hc

/-- Claim C7 counterexample: two candidates with the same start page 3 and
different titles both survive deduplication, and the first receives end
page 2, which is smaller than its start page 3. -/
theorem merge_chapters_end_ge_counterexample :
    (merge_chapters [tiedChapters] 10).map (fun c => (c.start_page, c.end_page)) =
      [(3, some 2), (3, some 10)] ∧ ¬ ((3 : Int) ≤ 2) :=
  ⟨by decide, by decide⟩

/-- Claim C7 witness: the amended theorem applied to concrete candidates
with distinct start pages within the total. -/
theorem merge_chapters_end_ge_witness :
    ∃ e, (⟨cs "Alpha", 1, some 4, 1⟩ : Chapter).end_page = some e ∧
      (⟨cs "Alpha", 1, some 4, 1⟩ : Chapter).start_page ≤ e :=
  merge_chapters_end_ge [sampleChapters] 10 (by decide) (by decide) _ (by decide)

theorem mem_process_outline_list (total : Int) :
    ∀ (children : List OutlineItem) (it : OutlineItem) (level : Int)
      (c : Chapter), it ∈ children → c ∈ process_outline_item total it level →
      c ∈ process_outline_list total children level
  | [], it, level, c => by intro h _; simp at h
  | x :: rest, it, level, c => by
    intro hmem hin
    rw [process_outline_list]
    rcases List.mem_cons.mp hmem with h | h
    · subst h
      exact List.mem_append_left _ hin
    · exact List.mem_append_right _
        (mem_process_outline_list total rest it level c h hin)

theorem process_outline_item_emits (total : Int) (t : List Char) (p : Int)
    (ht : t ≠ []) (it : OutlineItem) (hocc : OccursInItem t p it) :
    ∀ level : Int, ∃ lvl,
      (⟨t, max 1 (min (p + 1) total), none, lvl⟩ : Chapter) ∈
        process_outline_item total it level := by
  induction hocc with
  | self =>
    intro level
    refine ⟨level, ?_⟩
    simp [process_outline_item, ht]
  | child it2 children hmem hocc2 ih =>
    intro level
    obtain ⟨lvl, hin⟩ := ih (level + 1)
    refine ⟨lvl, ?_⟩
    rw [process_outline_item]
    exact mem_process_outline_list total children it2 (level + 1) _ hmem hin

/-- Claim C3 (amended): extract_chapters_from_outline emits every bookmark
with a truthy title and a resolved destination at every nesting depth, not
only the top level; the depth is recorded in the level field (the items of
the top list get level 2, one more per nesting) but is never used to
filter. -/
theorem outline_emits_all_depths (doc : PdfDocument) (t : List Char) (p : Int)
    (hne : doc.outline ≠ []) (ht : t ≠ [])
    (hocc : ∃ it ∈ doc.outline, OccursInItem t p it) :
    ∃ c ∈ extract_chapters_from_outline doc,
      c.title = t ∧ c.start_page = max 1 (min (p + 1) (doc.totalPages : Int)) := by
  obtain ⟨it, hit, hocc2⟩ := hocc
  obtain ⟨lvl, hin⟩ := process_outline_item_emits (doc.totalPages : Int) t p ht it hocc2 2
  have hin2 : (⟨t, max 1 (min (p + 1) (doc.totalPages : Int)), none, lvl⟩ : Chapter) ∈
      process_outline_list (doc.totalPages : Int) doc.outline 2 :=
    mem_process_outline_list _ doc.outline it 2 _ hit hin
  match hout : doc.outline, hne with
  | o0 :: os, _ =>
    have hextract : extract_chapters_from_outline doc =
        assignEnds (doc.totalPages : Int)
          (sortChapters (process_outline_list (doc.totalPages : Int) doc.outline 2)) := by
      rw [extract_chapters_from_outline, hout]
    rw [hout] at hin2
    have hin3 : (⟨t, max 1 (min (p + 1) (doc.totalPages : Int)), none, lvl⟩ : Chapter) ∈
        sortChapters (process_outline_list (doc.totalPages : Int) (o0 :: os) 2) :=
      (sortChapters_perm _).mem_iff.mpr hin2
    obtain ⟨c2, hc2, he1, he2, _⟩ :=
      mem_assignEnds_of_mem (doc.totalPages : Int) _ _ hin3
    rw [hextract, hout]
    exact ⟨c2, hc2, he1, he2⟩

/-- Claim C3 counterexample: in a document whose outline nests the
bookmark B inside a group below the top level, the extractor emits B as a
candidate (with level 3) alongside the top-level A, so deeper items do
appear in the returned list. -/
theorem outline_emits_all_depths_counterexample :
    (extract_chapters_from_outline outlineDoc).map (fun c => (c.title, c.level)) =
      [(cs "A", 2), (cs "B", 3)] :=
  by decide

/-- Claim C3 witness: the amended theorem applied to the concrete nested
outline. -/
theorem outline_emits_all_depths_witness :
    ∃ c ∈ extract_chapters_from_outline outlineDoc,
      c.title = cs "B" ∧
      c.start_page = max 1 (min ((1 : Int) + 1) ((outlineDoc.totalPages : Nat) : Int)) :=
  outline_emits_all_depths outlineDoc (cs "B") 1
    (by intro h; simp [outlineDoc] at h)
    (by decide)
    ⟨OutlineItem.group [OutlineItem.leaf (some (cs "B")) (some 1)],
     List.mem_cons_of_mem _ (List.mem_cons_self _ _),
     OccursInItem.child _ _ (List.mem_cons_self _ _) OccursInItem.self⟩

theorem mem_pipeline {κ : Type} [DecidableEq κ] (key : Chapter → κ) (total : Int)
    (cands : List Chapter) (c : Chapter)
    (h : c ∈ assignEnds total (sortChapters (dedupByKey key cands))) :
    ∃ c0 ∈ cands, c0.title = c.title ∧ c0.start_page = c.start_page ∧
      c0.level = c.level := by
  obtain ⟨c1, hc1, he1, he2, he3⟩ := mem_of_mem_assignEnds total _ _ h
  have hc2 : c1 ∈ dedupByKey key cands := (sortChapters_perm _).mem_iff.mp hc1
  exact ⟨c1, (dedupByKey_sublist key cands).mem hc2, he1, he2, he3⟩

theorem mem_formattingCandidates (doc : PdfDocument) (c : Chapter)
    (h : c ∈ formattingCandidates doc) :
    ∃ p, p < doc.totalPages ∧ ∃ s ∈ pageSpans doc p,
      pyStrip s.text = c.title ∧ c.start_page = (p : Int) + 1 ∧ c.level = 1 ∧
      c.title ≠ [] ∧ 3 < c.title.length ∧ c.title.length < 200 ∧
      matchesAnyTitlePattern c.title = true := by
  simp only [formattingCandidates, List.mem_flatMap, List.mem_filterMap,
    List.mem_range] at h
  obtain ⟨p, hp, block, hb, line, hl, span, hs, hf⟩ := h
  split at hf
  · next hcond =>
    obtain ⟨h1, h2, h3, h4⟩ := hcond
    cases hf
    refine ⟨p, hp, span, ?_, rfl, rfl, rfl, h1, h2, h3, h4⟩
    simp only [pageSpans, List.mem_flatMap]
    exact ⟨block, hb, line, hl, hs⟩
  · exact absurd hf (by simp)

/-- Claim C4 (amended): a text span is emitted as a candidate by
extract_chapters_by_formatting exactly on the basis of its text: the
stripped text must be nonempty, strictly between 3 and 200 characters, and
match one of the five fixed title regexes (case-insensitively); the font
size and boldness of the span are never consulted. -/
theorem formatting_emits_only_title_matches (doc : PdfDocument) (q : ℚ)
    (c : Chapter) (h : c ∈ extract_chapters_by_formatting doc q) :
    3 < c.title.length ∧ c.title.length < 200 ∧
    matchesAnyTitlePattern c.title = true ∧
    ∃ p, p < doc.totalPages ∧ c.start_page = (p : Int) + 1 ∧
      ∃ s ∈ pageSpans doc p, pyStrip s.text = c.title := by
  have h2 : c ∈ assignEnds (doc.totalPages : Int)
      (sortChapters (dedupByKey (fun c => c.title) (formattingCandidates doc))) := h
  obtain ⟨c0, hc0, he1, he2, _⟩ := mem_pipeline (fun c => c.title) _ _ c h2
  obtain ⟨p, hp, s, hsmem, hst, hsp, _, _, hlen1, hlen2, hpat⟩ :=
    mem_formattingCandidates doc c0 hc0
  rw [he1] at hlen1 hlen2 hpat hst
  exact ⟨hlen1, hlen2, hpat, p, hp, by rw [← he2, hsp], s, hsmem, hst⟩

/-- Claim C4 counterexample: a document whose only span is not bold and
has font size equal to the median (ratio 1, below the 1.20 threshold)
still yields a candidate, because its text matches the Chapter pattern;
the heading heuristic of the claim would emit nothing here. -/
theorem formatting_font_counterexample :
    extract_chapters_by_formatting fmtDoc (4 / 5 : ℚ) =
      [⟨cs "Chapter 1", 1, some 1, 1⟩] ∧
    docSpans fmtDoc = [⟨cs "Chapter 1", 10, false⟩] ∧
    medianFontSize fmtDoc = 10 ∧
    ((10 : ℚ) / 10 < 6 / 5) ∧
    (⟨cs "Chapter 1", 10, false⟩ : TextSpan).bold = false :=
  ⟨by decide, by decide, by decide, by norm_num, rfl⟩

/-- Claim C4 witness: the amended theorem applied to the concrete
document and its emitted chapter. -/
theorem formatting_emits_only_title_matches_witness :
    3 < (⟨cs "Chapter 1", 1, some 1, 1⟩ : Chapter).title.length ∧
    (⟨cs "Chapter 1", 1, some 1, 1⟩ : Chapter).title.length < 200 ∧
    matchesAnyTitlePattern (⟨cs "Chapter 1", 1, some 1, 1⟩ : Chapter).title = true ∧
    ∃ p, p < fmtDoc.totalPages ∧
      (⟨cs "Chapter 1", 1, some 1, 1⟩ : Chapter).start_page = (p : Int) + 1 ∧
      ∃ s ∈ pageSpans fmtDoc p,
        pyStrip s.text = (⟨cs "Chapter 1", 1, some 1, 1⟩ : Chapter).title :=
  formatting_emits_only_title_matches fmtDoc (4 / 5 : ℚ) _ (by decide)

theorem mem_simpleCandidates (doc : PdfDocument) (c : Chapter)
    (h : c ∈ simpleCandidates doc) :
    ∃ p, p < doc.totalPages ∧ c.start_page = (p : Int) + 1 ∧
      ∃ line ∈ (splitOnChar '\n' ((doc.pageText p).take 500)).take 5,
        c.title = pyStrip (line.take 50) ∧ 5 < line.length ∧ line.length < 200 ∧
        (chapterKeywords.any fun kw =>
          listHasInfix kw (pyStrip (line.map Char.toLower))) = true := by
  simp only [simpleCandidates, List.mem_flatMap, List.mem_range] at h
  obtain ⟨p, hp, line, hline, hf⟩ := h
  split at hf
  · next hcond =>
    obtain ⟨h1, h2, h3⟩ := hcond
    simp only [List.mem_singleton] at hf
    subst hf
    exact ⟨p, hp, rfl, line, hline, rfl, h2, h3, h1⟩
  · simp at hf

/-- Claim C2 (amended): when the merged extractor output is empty,
detect_chapters falls back to the keyword scan of simple_chapter_detection
rather than to a whole-document single chapter; the pipeline result is
empty exactly when both the merge and the keyword scan are empty, and
every fallback chapter originates from a line among the first 5 lines of
the first 500 characters of some page that contains a chapter keyword. -/
theorem detect_chapters_fallback (doc : PdfDocument) :
    (detectMerged doc = [] → detect_chapters doc = simple_chapter_detection doc) ∧
    (detect_chapters doc = [] ↔
      detectMerged doc = [] ∧ simple_chapter_detection doc = []) ∧
    (∀ c ∈ simple_chapter_detection doc,
      ∃ p, p < doc.totalPages ∧ c.start_page = (p : Int) + 1 ∧
        ∃ line ∈ (splitOnChar '\n' ((doc.pageText p).take 500)).take 5,
          c.title = pyStrip (line.take 50) ∧
          (chapterKeywords.any fun kw =>
            listHasInfix kw (pyStrip (line.map Char.toLower))) = true) := by
  refine ⟨?_, ?_, ?_⟩
  · intro hm
    rw [detect_chapters, if_pos hm]
  · by_cases hm : detectMerged doc = []
    · rw [detect_chapters, if_pos hm]
      simp [hm]
    · rw [detect_chapters, if_neg hm]
      simp [hm]
  · intro c hc
    have h2 : c ∈ assignEnds (doc.totalPages : Int)
        (sortChapters (dedupByKey (fun c => c.start_page) (simpleCandidates doc))) := hc
    obtain ⟨c0, hc0, he1, he2, _⟩ := mem_pipeline (fun c => c.start_page) _ _ c h2
    obtain ⟨p, hp, hsp, line, hline, ht, _, _, hkw⟩ := mem_simpleCandidates doc c0 hc0
    exact ⟨p, hp, by rw [← he2, hsp], line, hline, by rw [← he1, ht], hkw⟩

/-- Claim C2 counterexample: a readable one-page document containing only
the word hello makes every extractor and the keyword fallback return
nothing, so detect_chapters returns the empty list instead of the
single whole-document fallback chapter the claim requires. -/
theorem detect_chapters_empty_counterexample :
    detect_chapters plainDoc = [] ∧ plainDoc.totalPages = 1 :=
  ⟨by decide, rfl⟩

/-- Claim C2 witness: the amended theorem applied to the concrete
document whose merge result is empty. -/
theorem detect_chapters_fallback_witness :
    detect_chapters plainDoc = simple_chapter_detection plainDoc :=
  (detect_chapters_fallback plainDoc).1 (by decide)

/-- Claim C8: extract_chapters_by_table_of_contents returns a non-empty
list only when at least 2 entries survive resolution and deduplication;
with fewer than 2 survivors it returns the empty list (never a single
entry), and a non-empty result has exactly as many chapters as there are
survivors. -/
theorem toc_requires_two_survivors (doc : PdfDocument) :
    ((tocUniqueChapters doc).length < 2 →
      extract_chapters_by_table_of_contents doc = []) ∧
    (extract_chapters_by_table_of_contents doc ≠ [] →
      2 ≤ (tocUniqueChapters doc).length ∧
      (extract_chapters_by_table_of_contents doc).length =
        (tocUniqueChapters doc).length) := by
  rw [extract_chapters_by_table_of_contents]
  split
  · exact ⟨fun _ => rfl, fun h => absurd rfl h⟩
  · split
    · next hlt => exact ⟨fun _ => rfl, fun h => absurd rfl h⟩
    · next hlt =>
      refine ⟨fun h => absurd h hlt, fun _ => ⟨Nat.le_of_not_lt hlt, ?_⟩⟩
      rw [assignEnds_length]
      exact (sortChapters_perm _).length_eq

/-- Claim C8 witness: the theorem applied to the zero-page document, whose
survivor list is empty. -/
theorem toc_requires_two_survivors_witness :
    (tocUniqueChapters emptyDoc).length < 2 ∧
    extract_chapters_by_table_of_contents emptyDoc = [] :=
  ⟨by decide, (toc_requires_two_survivors emptyDoc).1 (by decide)⟩

/-- Claim C9: whenever _printed_page_to_pdf_index returns an index rather
than none, that index lies in the interval from 0 inclusive to the page
count exclusive, given a label map whose entries all lie in that
interval (as _build_label_map produces over the same document). -/
theorem checkedCandidate_in_range (doc : PdfDocument) (arabic cand c : Int)
    (h : checkedCandidate doc arabic cand = some c) :
    0 ≤ c ∧ c < (doc.totalPages : Int) := by
  rw [checkedCandidate] at h
  split at h
  · next hcond =>
    cases h
    exact ⟨hcond.1, hcond.2.1⟩
  · simp at h

theorem resolveArabicOffset_in_range (doc : PdfDocument)
    (labelMap : List (List Char × Int)) (arabic c : Int)
    (h : resolveArabicOffset doc labelMap arabic = some c) :
    0 ≤ c ∧ c < (doc.totalPages : Int) := by
  simp only [resolveArabicOffset] at h
  split at h
  · simp at h
  · split at h
    · next hdir =>
      cases h
      exact checkedCandidate_in_range doc arabic _ _ hdir
    · obtain ⟨delta, _, hdel⟩ := firstSome_eq_some _ _ _ h
      obtain ⟨cand, _, hcand⟩ := firstSome_eq_some _ _ _ hdel
      exact checkedCandidate_in_range doc arabic _ _ hcand

theorem resolveArabicScan_in_range (doc : PdfDocument) (arabic c : Int)
    (h : resolveArabicScan doc arabic = some c) :
    0 ≤ c ∧ c < (doc.totalPages : Int) := by
  obtain ⟨i2, hi2, hscan⟩ := firstSome_eq_some _ _ _ h
  split at hscan
  · cases hscan
    refine ⟨Int.ofNat_nonneg _, ?_⟩
    have := List.mem_range.mp hi2
    exact_mod_cast this
  · simp at hscan

theorem resolveRomanScan_mem (labelMap : List (List Char × Int))
    (printed : List Char) (c : Int) (h : resolveRomanScan labelMap printed = some c) :
    ∃ pr ∈ labelMap, pr.2 = c := by
  rw [resolveRomanScan] at h
  split at h
  · rcases hfind : (labelMap.find? fun pr =>
        _roman_to_int pr.1 = some _) with _ | pr2
    · rw [hfind] at h; simp at h
    · rw [hfind] at h
      have h2 : pr2.2 = c := by
        simpa using h
      exact ⟨pr2, List.mem_of_find?_eq_some hfind, h2⟩
  · simp at h

/-- Claim C9: whenever _printed_page_to_pdf_index returns an index rather
than none, that index lies in the interval from 0 inclusive to the page
count exclusive, given a label map whose entries all lie in that
interval (as _build_label_map produces over the same document). -/
theorem printed_page_index_in_range (doc : PdfDocument)
    (labelMap : List (List Char × Int)) (printed : List Char) (idx : Int)
    (hmap : ∀ pr ∈ labelMap, 0 ≤ pr.2 ∧ pr.2 < (doc.totalPages : Int))
    (h : _printed_page_to_pdf_index doc labelMap printed = some idx) :
    0 ≤ idx ∧ idx < (doc.totalPages : Int) := by
  rw [_printed_page_to_pdf_index] at h
  split at h
  · next hd =>
    cases h
    exact hmap _ (dictLookup_mem _ _ _ hd)
  · split at h
    · next hd =>
      cases h
      exact hmap _ (dictLookup_mem _ _ _ hd)
    · split at h
      · next hr =>
        cases h
        obtain ⟨pr, hpr, hpr2⟩ := resolveRomanScan_mem _ _ _ hr
        exact hpr2 ▸ hmap _ hpr
      · split at h
        · simp at h
        · split at h
          · next hoff =>
            cases h
            exact resolveArabicOffset_in_range doc labelMap _ _ hoff
          · exact resolveArabicScan_in_range doc _ _ h

/-- Claim C9 witness: the theorem applied to a concrete map sending label
iv to index 3 in a ten-page document, resolved against the printed label
IV. -/
theorem printed_page_index_in_range_witness :
    (0 : Int) ≤ 3 ∧ (3 : Int) < (tenPageDoc.totalPages : Int) :=
  printed_page_index_in_range tenPageDoc sampleLabelMap (cs "IV") 3
    (by decide) (by decide)

/-- Claim C10: _roman_to_int is total and returns either none or a
strictly positive integer on every input; it never returns zero or a
negative value. -/
theorem roman_to_int_none_or_positive (s : List Char) :
    _roman_to_int s = none ∨ ∃ n : Int, _roman_to_int s = some n ∧ 0 < n := by
  rw [_roman_to_int]
  split
  · exact Or.inl rfl
  · split
    · exact Or.inl rfl
    · by_cases hpos : 0 < romanValue ((pyStrip s).map Char.toUpper)
      · exact Or.inr ⟨_, by simp [hpos], hpos⟩
      · exact Or.inl (by simp [hpos])

/-!
Correctness of the roman-numeral regex matcher.  Forward direction: a
successful parse yields a grammar decomposition.  Backward direction: the
deterministic group scan accepts every grammar decomposition, because no
earlier-preferred candidate of a group can match once the following groups
are known not to begin with the characters of that group.
-/

theorem isPrefixOf_append_cancel (p s r : List Char) :
    (p ++ s).isPrefixOf (p ++ r) = s.isPrefixOf r := by
  induction p with
  | nil => rfl
  | cons c cp ih => simp [List.isPrefixOf, ih]

theorem isPrefixOf_append_self (p r : List Char) :
    p.isPrefixOf (p ++ r) = true := by
  have h := isPrefixOf_append_cancel p [] r
  rw [List.append_nil] at h
  rw [h]
  cases r <;> rfl

theorem isPrefixOf_false_of_head (c : Char) (cr r : List Char)
    (h : r.head? ≠ some c) : (c :: cr).isPrefixOf r = false := by
  cases r with
  | nil => rfl
  | cons x xs =>
    simp only [List.head?_cons, ne_eq, Option.some.injEq] at h
    simp only [List.isPrefixOf, Bool.and_eq_false_iff]
    left
    simp only [beq_eq_false_iff_ne, ne_eq]
    intro he
    exact h he.symm

theorem takeFirstCand_miss :
    ∀ (cands : List (List Char)) (r : List Char),
      (∀ cnd ∈ cands, cnd.isPrefixOf r = false) →
      takeFirstCand cands r = ([], r)
  | [], _ => fun _ => rfl
  | c :: cands, r => fun h => by
    rw [takeFirstCand]
    rw [if_neg (by simp [h c (List.mem_cons_self c cands)])]
    exact takeFirstCand_miss cands r fun cnd hc => h cnd (List.mem_cons_of_mem _ hc)

theorem takeFirstCand_hit :
    ∀ (pre post : List (List Char)) (x r : List Char),
      (∀ cnd ∈ pre, cnd.isPrefixOf (x ++ r) = false) →
      takeFirstCand (pre ++ x :: post) (x ++ r) = (x, r)
  | [], post, x, r => fun _ => by
    rw [List.nil_append, takeFirstCand]
    rw [if_pos (isPrefixOf_append_self x r)]
    rw [List.drop_left]
  | c :: pre, post, x, r => fun h => by
    rw [List.cons_append, takeFirstCand]
    rw [if_neg (by simp [h c (List.mem_cons_self c pre)])]
    exact takeFirstCand_hit pre post x r fun cnd hc => h cnd (List.mem_cons_of_mem _ hc)

theorem takeM_exact (a r : List Char) (ha : a ∈ ([] :: romanMCands))
    (hr : r.head? ≠ some 'M') :
    takeFirstCand romanMCands (a ++ r) = (a, r) := by
  have hM : ∀ cr : List Char, ('M' :: cr).isPrefixOf r = false :=
    fun cr => isPrefixOf_false_of_head 'M' cr r hr
  simp only [romanMCands, List.mem_cons, List.not_mem_nil, or_false] at ha
  rcases ha with rfl | rfl | rfl | rfl | rfl
  · rw [List.nil_append]
    refine takeFirstCand_miss _ _ ?_
    intro cnd hcnd
    simp only [romanMCands, List.mem_cons, List.not_mem_nil, or_false] at hcnd
    rcases hcnd with rfl | rfl | rfl | rfl
    · exact hM _
    · exact hM _
    · exact hM _
    · exact hM _
  · exact takeFirstCand_hit [] _ _ r (by intro cnd hc; simp at hc)
  · refine takeFirstCand_hit [cs "MMMM"] _ _ r ?_
    intro cnd hcnd
    simp only [List.mem_cons, List.not_mem_nil, or_false] at hcnd
    subst hcnd
    show (cs "MMM" ++ cs "M").isPrefixOf (cs "MMM" ++ r) = false
    rw [isPrefixOf_append_cancel]
    exact hM _
  · refine takeFirstCand_hit [cs "MMMM", cs "MMM"] _ _ r ?_
    intro cnd hcnd
    simp only [List.mem_cons, List.not_mem_nil, or_false] at hcnd
    rcases hcnd with rfl | rfl
    · show (cs "MM" ++ cs "MM").isPrefixOf (cs "MM" ++ r) = false
      rw [isPrefixOf_append_cancel]
      exact hM _
    · show (cs "MM" ++ cs "M").isPrefixOf (cs "MM" ++ r) = false
      rw [isPrefixOf_append_cancel]
      exact hM _
  · refine takeFirstCand_hit [cs "MMMM", cs "MMM", cs "MM"] _ _ r ?_
    intro cnd hcnd
    simp only [List.mem_cons, List.not_mem_nil, or_false] at hcnd
    rcases hcnd with rfl | rfl | rfl
    · show (cs "M" ++ cs "MMM").isPrefixOf (cs "M" ++ r) = false
      rw [isPrefixOf_append_cancel]
      exact hM _
    · show (cs "M" ++ cs "MM").isPrefixOf (cs "M" ++ r) = false
      rw [isPrefixOf_append_cancel]
      exact hM _
    · show (cs "M" ++ cs "M").isPrefixOf (cs "M" ++ r) = false
      rw [isPrefixOf_append_cancel]
      exact hM _

theorem isPrefixOf_false_cons_ne (c x : Char) (cr xs r : List Char) (h : x ≠ c) :
    (c :: cr).isPrefixOf ((x :: xs) ++ r) = false := by
  apply isPrefixOf_false_of_head
  simp only [List.cons_append, List.head?_cons, ne_eq, Option.some.injEq]
  intro he
  exact h he

theorem takeH_exact (b r : List Char) (hb : b ∈ ([] :: romanHCands))
    (hrC : r.head? ≠ some 'C') (hrD : r.head? ≠ some 'D')
    (hrM : r.head? ≠ some 'M') :
    takeFirstCand romanHCands (b ++ r) = (b, r) := by
  have hC : ∀ cr : List Char, ('C' :: cr).isPrefixOf r = false :=
    fun cr => isPrefixOf_false_of_head 'C' cr r hrC
  have hD : ∀ cr : List Char, ('D' :: cr).isPrefixOf r = false :=
    fun cr => isPrefixOf_false_of_head 'D' cr r hrD
  have hM : ∀ cr : List Char, ('M' :: cr).isPrefixOf r = false :=
    fun cr => isPrefixOf_false_of_head 'M' cr r hrM
  simp only [romanHCands, List.mem_cons, List.not_mem_nil, or_false] at hb
  rcases hb with rfl | rfl | rfl | rfl | rfl | rfl | rfl | rfl | rfl | rfl
  · rw [List.nil_append]
    refine takeFirstCand_miss _ _ ?_
    intro cnd hcnd
    simp only [romanHCands, List.mem_cons, List.not_mem_nil, or_false] at hcnd
    rcases hcnd with rfl | rfl | rfl | rfl | rfl | rfl | rfl | rfl | rfl
    · exact hC _
    · exact hC _
    · exact hD _
    · exact hD _
    · exact hD _
    · exact hD _
    · exact hC _
    · exact hC _
    · exact hC _
  · exact takeFirstCand_hit [] _ _ r (by intro cnd hc; simp at hc)
  · refine takeFirstCand_hit [cs "CM"] _ _ r ?_
    intro cnd hcnd
    simp only [List.mem_cons, List.not_mem_nil, or_false] at hcnd
    subst hcnd
    show (cs "C" ++ cs "M").isPrefixOf (cs "C" ++ (cs "D" ++ r)) = false
    rw [isPrefixOf_append_cancel]
    exact isPrefixOf_false_cons_ne 'M' 'D' _ _ _ (by decide)
  · refine takeFirstCand_hit [cs "CM", cs "CD"] _ _ r ?_
    intro cnd hcnd
    simp only [List.mem_cons, List.not_mem_nil, or_false] at hcnd
    rcases hcnd with rfl | rfl
    · exact isPrefixOf_false_cons_ne 'C' 'D' _ _ _ (by decide)
    · exact isPrefixOf_false_cons_ne 'C' 'D' _ _ _ (by decide)
  · refine takeFirstCand_hit [cs "CM", cs "CD", cs "DCCC"] _ _ r ?_
    intro cnd hcnd
    simp only [List.mem_cons, List.not_mem_nil, or_false] at hcnd
    rcases hcnd with rfl | rfl | rfl
    · exact isPrefixOf_false_cons_ne 'C' 'D' _ _ _ (by decide)
    · exact isPrefixOf_false_cons_ne 'C' 'D' _ _ _ (by decide)
    · show (cs "DCC" ++ cs "C").isPrefixOf (cs "DCC" ++ r) = false
      rw [isPrefixOf_append_cancel]
      exact hC _
  · refine takeFirstCand_hit [cs "CM", cs "CD", cs "DCCC", cs "DCC"] _ _ r ?_
    intro cnd hcnd
    simp only [List.mem_cons, List.not_mem_nil, or_false] at hcnd
    rcases hcnd with rfl | rfl | rfl | rfl
    · exact isPrefixOf_false_cons_ne 'C' 'D' _ _ _ (by decide)
    · exact isPrefixOf_false_cons_ne 'C' 'D' _ _ _ (by decide)
    · show (cs "DC" ++ cs "CC").isPrefixOf (cs "DC" ++ r) = false
      rw [isPrefixOf_append_cancel]
      exact hC _
    · show (cs "DC" ++ cs "C").isPrefixOf (cs "DC" ++ r) = false
      rw [isPrefixOf_append_cancel]
      exact hC _
  · refine takeFirstCand_hit [cs "CM", cs "CD", cs "DCCC", cs "DCC", cs "DC"] _ _ r ?_
    intro cnd hcnd
    simp only [List.mem_cons, List.not_mem_nil, or_false] at hcnd
    rcases hcnd with rfl | rfl | rfl | rfl | rfl
    · exact isPrefixOf_false_cons_ne 'C' 'D' _ _ _ (by decide)
    · exact isPrefixOf_false_cons_ne 'C' 'D' _ _ _ (by decide)
    · show (cs "D" ++ cs "CCC").isPrefixOf (cs "D" ++ r) = false
      rw [isPrefixOf_append_cancel]
      exact hC _
    · show (cs "D" ++ cs "CC").isPrefixOf (cs "D" ++ r) = false
      rw [isPrefixOf_append_cancel]
      exact hC _
    · show (cs "D" ++ cs "C").isPrefixOf (cs "D" ++ r) = false
      rw [isPrefixOf_append_cancel]
      exact hC _
  · refine takeFirstCand_hit [cs "CM", cs "CD", cs "DCCC", cs "DCC", cs "DC", cs "D"] _ _ r ?_
    intro cnd hcnd
    simp only [List.mem_cons, List.not_mem_nil, or_false] at hcnd
    rcases hcnd with rfl | rfl | rfl | rfl | rfl | rfl
    · show (cs "C" ++ cs "M").isPrefixOf (cs "C" ++ (cs "CC" ++ r)) = false
      rw [isPrefixOf_append_cancel]
      exact isPrefixOf_false_cons_ne 'M' 'C' _ _ _ (by decide)
    · show (cs "C" ++ cs "D").isPrefixOf (cs "C" ++ (cs "CC" ++ r)) = false
      rw [isPrefixOf_append_cancel]
      exact isPrefixOf_false_cons_ne 'D' 'C' _ _ _ (by decide)
    · exact isPrefixOf_false_cons_ne 'D' 'C' _ _ _ (by decide)
    · exact isPrefixOf_false_cons_ne 'D' 'C' _ _ _ (by decide)
    · exact isPrefixOf_false_cons_ne 'D' 'C' _ _ _ (by decide)
    · exact isPrefixOf_false_cons_ne 'D' 'C' _ _ _ (by decide)
  · refine takeFirstCand_hit
      [cs "CM", cs "CD", cs "DCCC", cs "DCC", cs "DC", cs "D", cs "CCC"] _ _ r ?_
    intro cnd hcnd
    simp only [List.mem_cons, List.not_mem_nil, or_false] at hcnd
    rcases hcnd with rfl | rfl | rfl | rfl | rfl | rfl | rfl
    · show (cs "C" ++ cs "M").isPrefixOf (cs "C" ++ (cs "C" ++ r)) = false
      rw [isPrefixOf_append_cancel]
      exact isPrefixOf_false_cons_ne 'M' 'C' _ _ _ (by decide)
    · show (cs "C" ++ cs "D").isPrefixOf (cs "C" ++ (cs "C" ++ r)) = false
      rw [isPrefixOf_append_cancel]
      exact isPrefixOf_false_cons_ne 'D' 'C' _ _ _ (by decide)
    · exact isPrefixOf_false_cons_ne 'D' 'C' _ _ _ (by decide)
    · exact isPrefixOf_false_cons_ne 'D' 'C' _ _ _ (by decide)
    · exact isPrefixOf_false_cons_ne 'D' 'C' _ _ _ (by decide)
    · exact isPrefixOf_false_cons_ne 'D' 'C' _ _ _ (by decide)
    · show (cs "CC" ++ cs "C").isPrefixOf (cs "CC" ++ r) = false
      rw [isPrefixOf_append_cancel]
      exact hC _
  · refine takeFirstCand_hit
      [cs "CM", cs "CD", cs "DCCC", cs "DCC", cs "DC", cs "D", cs "CCC", cs "CC"] _ _ r ?_
    intro cnd hcnd
    simp only [List.mem_cons, List.not_mem_nil, or_false] at hcnd
    rcases hcnd with rfl | rfl | rfl | rfl | rfl | rfl | rfl | rfl
    · show (cs "C" ++ cs "M").isPrefixOf (cs "C" ++ r) = false
      rw [isPrefixOf_append_cancel]
      exact hM _
    · show (cs "C" ++ cs "D").isPrefixOf (cs "C" ++ r) = false
      rw [isPrefixOf_append_cancel]
      exact hD _
    · exact isPrefixOf_false_cons_ne 'D' 'C' _ _ _ (by decide)
    · exact isPrefixOf_false_cons_ne 'D' 'C' _ _ _ (by decide)
    · exact isPrefixOf_false_cons_ne 'D' 'C' _ _ _ (by decide)
    · exact isPrefixOf_false_cons_ne 'D' 'C' _ _ _ (by decide)
    · show (cs "C" ++ cs "CC").isPrefixOf (cs "C" ++ r) = false
      rw [isPrefixOf_append_cancel]
      exact hC _
    · show (cs "C" ++ cs "C").isPrefixOf (cs "C" ++ r) = false
      rw [isPrefixOf_append_cancel]
      exact hC _

theorem takeT_exact (c r : List Char) (hc : c ∈ ([] :: romanTCands))
    (hrX : r.head? ≠ some 'X') (hrL : r.head? ≠ some 'L')
    (hrC : r.head? ≠ some 'C') :
    takeFirstCand romanTCands (c ++ r) = (c, r) := by
  have hX : ∀ cr : List Char, ('X' :: cr).isPrefixOf r = false :=
    fun cr => isPrefixOf_false_of_head 'X' cr r hrX
  have hL : ∀ cr : List Char, ('L' :: cr).isPrefixOf r = false :=
    fun cr => isPrefixOf_false_of_head 'L' cr r hrL
  have hCr : ∀ cr : List Char, ('C' :: cr).isPrefixOf r = false :=
    fun cr => isPrefixOf_false_of_head 'C' cr r hrC
  simp only [romanTCands, List.mem_cons, List.not_mem_nil, or_false] at hc
  rcases hc with rfl | rfl | rfl | rfl | rfl | rfl | rfl | rfl | rfl | rfl
  · rw [List.nil_append]
    refine takeFirstCand_miss _ _ ?_
    intro cnd hcnd
    simp only [romanTCands, List.mem_cons, List.not_mem_nil, or_false] at hcnd
    rcases hcnd with rfl | rfl | rfl | rfl | rfl | rfl | rfl | rfl | rfl
    · exact hX _
    · exact hX _
    · exact hL _
    · exact hL _
    · exact hL _
    · exact hL _
    · exact hX _
    · exact hX _
    · exact hX _
  · exact takeFirstCand_hit [] _ _ r (by intro cnd hcn; simp at hcn)
  · refine takeFirstCand_hit [cs "XC"] _ _ r ?_
    intro cnd hcnd
    simp only [List.mem_cons, List.not_mem_nil, or_false] at hcnd
    subst hcnd
    show (cs "X" ++ cs "C").isPrefixOf (cs "X" ++ (cs "L" ++ r)) = false
    rw [isPrefixOf_append_cancel]
    exact isPrefixOf_false_cons_ne 'C' 'L' _ _ _ (by decide)
  · refine takeFirstCand_hit [cs "XC", cs "XL"] _ _ r ?_
    intro cnd hcnd
    simp only [List.mem_cons, List.not_mem_nil, or_false] at hcnd
    rcases hcnd with rfl | rfl
    · exact isPrefixOf_false_cons_ne 'X' 'L' _ _ _ (by decide)
    · exact isPrefixOf_false_cons_ne 'X' 'L' _ _ _ (by decide)
  · refine takeFirstCand_hit [cs "XC", cs "XL", cs "LXXX"] _ _ r ?_
    intro cnd hcnd
    simp only [List.mem_cons, List.not_mem_nil, or_false] at hcnd
    rcases hcnd with rfl | rfl | rfl
    · exact isPrefixOf_false_cons_ne 'X' 'L' _ _ _ (by decide)
    · exact isPrefixOf_false_cons_ne 'X' 'L' _ _ _ (by decide)
    · show (cs "LXX" ++ cs "X").isPrefixOf (cs "LXX" ++ r) = false
      rw [isPrefixOf_append_cancel]
      exact hX _
  · refine takeFirstCand_hit [cs "XC", cs "XL", cs "LXXX", cs "LXX"] _ _ r ?_
    intro cnd hcnd
    simp only [List.mem_cons, List.not_mem_nil, or_false] at hcnd
    rcases hcnd with rfl | rfl | rfl | rfl
    · exact isPrefixOf_false_cons_ne 'X' 'L' _ _ _ (by decide)
    · exact isPrefixOf_false_cons_ne 'X' 'L' _ _ _ (by decide)
    · show (cs "LX" ++ cs "XX").isPrefixOf (cs "LX" ++ r) = false
      rw [isPrefixOf_append_cancel]
      exact hX _
    · show (cs "LX" ++ cs "X").isPrefixOf (cs "LX" ++ r) = false
      rw [isPrefixOf_append_cancel]
      exact hX _
  · refine takeFirstCand_hit [cs "XC", cs "XL", cs "LXXX", cs "LXX", cs "LX"] _ _ r ?_
    intro cnd hcnd
    simp only [List.mem_cons, List.not_mem_nil, or_false] at hcnd
    rcases hcnd with rfl | rfl | rfl | rfl | rfl
    · exact isPrefixOf_false_cons_ne 'X' 'L' _ _ _ (by decide)
    · exact isPrefixOf_false_cons_ne 'X' 'L' _ _ _ (by decide)
    · show (cs "L" ++ cs "XXX").isPrefixOf (cs "L" ++ r) = false
      rw [isPrefixOf_append_cancel]
      exact hX _
    · show (cs "L" ++ cs "XX").isPrefixOf (cs "L" ++ r) = false
      rw [isPrefixOf_append_cancel]
      exact hX _
    · show (cs "L" ++ cs "X").isPrefixOf (cs "L" ++ r) = false
      rw [isPrefixOf_append_cancel]
      exact hX _
  · refine takeFirstCand_hit [cs "XC", cs "XL", cs "LXXX", cs "LXX", cs "LX", cs "L"] _ _ r ?_
    intro cnd hcnd
    simp only [List.mem_cons, List.not_mem_nil, or_false] at hcnd
    rcases hcnd with rfl | rfl | rfl | rfl | rfl | rfl
    · show (cs "X" ++ cs "C").isPrefixOf (cs "X" ++ (cs "XX" ++ r)) = false
      rw [isPrefixOf_append_cancel]
      exact isPrefixOf_false_cons_ne 'C' 'X' _ _ _ (by decide)
    · show (cs "X" ++ cs "L").isPrefixOf (cs "X" ++ (cs "XX" ++ r)) = false
      rw [isPrefixOf_append_cancel]
      exact isPrefixOf_false_cons_ne 'L' 'X' _ _ _ (by decide)
    · exact isPrefixOf_false_cons_ne 'L' 'X' _ _ _ (by decide)
    · exact isPrefixOf_false_cons_ne 'L' 'X' _ _ _ (by decide)
    · exact isPrefixOf_false_cons_ne 'L' 'X' _ _ _ (by decide)
    · exact isPrefixOf_false_cons_ne 'L' 'X' _ _ _ (by decide)
  · refine takeFirstCand_hit
      [cs "XC", cs "XL", cs "LXXX", cs "LXX", cs "LX", cs "L", cs "XXX"] _ _ r ?_
    intro cnd hcnd
    simp only [List.mem_cons, List.not_mem_nil, or_false] at hcnd
    rcases hcnd with rfl | rfl | rfl | rfl | rfl | rfl | rfl
    · show (cs "X" ++ cs "C").isPrefixOf (cs "X" ++ (cs "X" ++ r)) = false
      rw [isPrefixOf_append_cancel]
      exact isPrefixOf_false_cons_ne 'C' 'X' _ _ _ (by decide)
    · show (cs "X" ++ cs "L").isPrefixOf (cs "X" ++ (cs "X" ++ r)) = false
      rw [isPrefixOf_append_cancel]
      exact isPrefixOf_false_cons_ne 'L' 'X' _ _ _ (by decide)
    · exact isPrefixOf_false_cons_ne 'L' 'X' _ _ _ (by decide)
    · exact isPrefixOf_false_cons_ne 'L' 'X' _ _ _ (by decide)
    · exact isPrefixOf_false_cons_ne 'L' 'X' _ _ _ (by decide)
    · exact isPrefixOf_false_cons_ne 'L' 'X' _ _ _ (by decide)
    · show (cs "XX" ++ cs "X").isPrefixOf (cs "XX" ++ r) = false
      rw [isPrefixOf_append_cancel]
      exact hX _
  · refine takeFirstCand_hit
      [cs "XC", cs "XL", cs "LXXX", cs "LXX", cs "LX", cs "L", cs "XXX", cs "XX"] _ _ r ?_
    intro cnd hcnd
    simp only [List.mem_cons, List.not_mem_nil, or_false] at hcnd
    rcases hcnd with rfl | rfl | rfl | rfl | rfl | rfl | rfl | rfl
    · show (cs "X" ++ cs "C").isPrefixOf (cs "X" ++ r) = false
      rw [isPrefixOf_append_cancel]
      exact hCr _
    · show (cs "X" ++ cs "L").isPrefixOf (cs "X" ++ r) = false
      rw [isPrefixOf_append_cancel]
      exact hL _
    · exact isPrefixOf_false_cons_ne 'L' 'X' _ _ _ (by decide)
    · exact isPrefixOf_false_cons_ne 'L' 'X' _ _ _ (by decide)
    · exact isPrefixOf_false_cons_ne 'L' 'X' _ _ _ (by decide)
    · exact isPrefixOf_false_cons_ne 'L' 'X' _ _ _ (by decide)
    · show (cs "X" ++ cs "XX").isPrefixOf (cs "X" ++ r) = false
      rw [isPrefixOf_append_cancel]
      exact hX _
    · show (cs "X" ++ cs "X").isPrefixOf (cs "X" ++ r) = false
      rw [isPrefixOf_append_cancel]
      exact hX _

theorem takeU_exact :
    ∀ d ∈ ([] :: romanUCands), takeFirstCand romanUCands d = (d, []) := by
  decide

theorem head_ne_append (l r : List Char) (bad : Char)
    (h1 : l.head? ≠ some bad) (h2 : r.head? ≠ some bad) :
    (l ++ r).head? ≠ some bad := by
  cases l with
  | nil => simpa using h2
  | cons x xs => simpa using h1

theorem hH_head_M : ∀ b ∈ ([] :: romanHCands), b.head? ≠ some 'M' := by decide

theorem hT_head_C : ∀ c ∈ ([] :: romanTCands), c.head? ≠ some 'C' := by decide

theorem hT_head_D : ∀ c ∈ ([] :: romanTCands), c.head? ≠ some 'D' := by decide

theorem hT_head_M : ∀ c ∈ ([] :: romanTCands), c.head? ≠ some 'M' := by decide

theorem hU_head_X : ∀ d ∈ ([] :: romanUCands), d.head? ≠ some 'X' := by decide

theorem hU_head_L : ∀ d ∈ ([] :: romanUCands), d.head? ≠ some 'L' := by decide

theorem hU_head_C : ∀ d ∈ ([] :: romanUCands), d.head? ≠ some 'C' := by decide

theorem hU_head_D : ∀ d ∈ ([] :: romanUCands), d.head? ≠ some 'D' := by decide

theorem hU_head_M : ∀ d ∈ ([] :: romanUCands), d.head? ≠ some 'M' := by decide

theorem romanParse_of_decomp (a b c d : List Char)
    (ha : a ∈ ([] :: romanMCands)) (hb : b ∈ ([] :: romanHCands))
    (hc : c ∈ ([] :: romanTCands)) (hd : d ∈ ([] :: romanUCands)) :
    romanParse (a ++ (b ++ (c ++ d))) = some (a, b, c, d) := by
  have hcdC : (c ++ d).head? ≠ some 'C' :=
    head_ne_append _ _ _ (hT_head_C c hc) (hU_head_C d hd)
  have hcdD : (c ++ d).head? ≠ some 'D' :=
    head_ne_append _ _ _ (hT_head_D c hc) (hU_head_D d hd)
  have hcdM : (c ++ d).head? ≠ some 'M' :=
    head_ne_append _ _ _ (hT_head_M c hc) (hU_head_M d hd)
  have hbcdM : (b ++ (c ++ d)).head? ≠ some 'M' :=
    head_ne_append _ _ _ (hH_head_M b hb) hcdM
  have hdX : d.head? ≠ some 'X' := hU_head_X d hd
  have hdL : d.head? ≠ some 'L' := hU_head_L d hd
  have hdC : d.head? ≠ some 'C' := hU_head_C d hd
  simp only [romanParse]
  rw [takeM_exact a _ ha hbcdM]
  rw [takeH_exact b _ hb hcdC hcdD hcdM]
  rw [takeT_exact c _ hc hdX hdL hdC]
  rw [takeU_exact d hd]
  simp

theorem takeFirstCand_split (cands : List (List Char)) (s : List Char) :
    ((takeFirstCand cands s).1 ∈ cands ∨ (takeFirstCand cands s).1 = []) ∧
    s = (takeFirstCand cands s).1 ++ (takeFirstCand cands s).2 := by
  induction cands with
  | nil => exact ⟨Or.inr rfl, rfl⟩
  | cons cnd rest ih =>
    rw [takeFirstCand]
    split
    · next hpre =>
      constructor
      · exact Or.inl (List.mem_cons_self _ _)
      · have hp : List.IsPrefix cnd s := List.isPrefixOf_iff_prefix.mp hpre
        obtain ⟨t, ht⟩ := hp
        rw [← ht, List.drop_left]
    · constructor
      · rcases ih.1 with h | h
        · exact Or.inl (List.mem_cons_of_mem _ h)
        · exact Or.inr h
      · exact ih.2

theorem canonicalRoman_of_romanRe (t : List Char) (hne : t ≠ [])
    (h : romanRe t = true) : canonicalRoman t := by
  refine ⟨hne, ?_⟩
  rw [romanRe, romanParse] at h
  set PM := takeFirstCand romanMCands t with hPM
  set PH := takeFirstCand romanHCands PM.2 with hPH
  set PT := takeFirstCand romanTCands PH.2 with hPT
  set PU := takeFirstCand romanUCands PT.2 with hPU
  have hM := takeFirstCand_split romanMCands t
  have hH := takeFirstCand_split romanHCands PM.2
  have hT := takeFirstCand_split romanTCands PH.2
  have hU := takeFirstCand_split romanUCands PT.2
  rw [← hPM] at hM
  rw [← hPH] at hH
  rw [← hPT] at hT
  rw [← hPU] at hU
  have hrest : PU.2 = [] := by
    by_contra hcon
    rw [if_neg hcon] at h
    simp at h
  have h4 : PT.2 = PU.1 := by
    have h5 := hU.2
    rw [hrest, List.append_nil] at h5
    exact h5
  refine ⟨PM.1, ?_, PH.1, ?_, PT.1, ?_, PU.1, ?_, ?_⟩
  · rcases hM.1 with hm | hm
    · exact List.mem_cons_of_mem _ hm
    · rw [hm]; exact List.mem_cons_self _ _
  · rcases hH.1 with hm | hm
    · exact List.mem_cons_of_mem _ hm
    · rw [hm]; exact List.mem_cons_self _ _
  · rcases hT.1 with hm | hm
    · exact List.mem_cons_of_mem _ hm
    · rw [hm]; exact List.mem_cons_self _ _
  · rcases hU.1 with hm | hm
    · exact List.mem_cons_of_mem _ hm
    · rw [hm]; exact List.mem_cons_self _ _
  · rw [hM.2, hH.2, hT.2, h4]

/-!
Value of the accumulation loop of _roman_to_int.  The loop is a left fold
over the reversed text whose first component shifts additively with the
initial result and whose second component only remembers the value of the
first character of the processed suffix.
-/

theorem romanFold_shift (l : List Char) :
    ∀ init : Int × Int, l.foldl romanFoldStep init =
      (init.1 + (l.foldl romanFoldStep (0, init.2)).1,
       (l.foldl romanFoldStep (0, init.2)).2) := by
  induction l with
  | nil =>
    intro init
    simp [List.foldl_nil]
  | cons ch rest ih =>
    intro init
    rw [List.foldl_cons, List.foldl_cons]
    rw [ih (romanFoldStep init ch), ih (romanFoldStep (0, init.2) ch)]
    simp only [romanFoldStep]
    simp [add_assoc]

theorem romanSuffixState_append (s t : List Char) :
    romanSuffixState (s ++ t) =
      s.reverse.foldl romanFoldStep (romanSuffixState t) := by
  rw [romanSuffixState, romanSuffixState, List.reverse_append, List.foldl_append]

theorem romanSuffixState_snd (t : List Char) :
    (romanSuffixState t).2 = headVal t := by
  cases t with
  | nil => rfl
  | cons ch rest =>
    rw [romanSuffixState, List.reverse_cons, List.foldl_append]
    simp [romanFoldStep, headVal]

theorem romanValue_append (s t : List Char) :
    romanValue (s ++ t) =
      romanValue t + (s.reverse.foldl romanFoldStep (0, headVal t)).1 := by
  rw [romanValue, romanSuffixState_append]
  rw [romanFold_shift s.reverse (romanSuffixState t)]
  rw [romanSuffixState_snd]
  rfl

theorem headVal_append (x y : List Char) :
    headVal (x ++ y) = if x = [] then headVal y else headVal x := by
  cases x with
  | nil => simp [headVal]
  | cons c cr => simp [headVal]

/-!
Per-group facts about the loop value, checked by evaluation: the value of
each candidate string folded from initial prev equal to any value the
following groups can put at its right, and the possible values of the
first character of each group.
-/

theorem roman_pos_U : ∀ d ∈ ([] :: romanUCands),
    0 ≤ romanValue d ∧ (d ≠ [] → 1 ≤ romanValue d) := by decide

theorem roman_pos_T : ∀ c ∈ ([] :: romanTCands), ∀ p ∈ [(0 : Int), 1, 5],
    0 ≤ (c.reverse.foldl romanFoldStep (0, p)).1 ∧
      (c ≠ [] → 1 ≤ (c.reverse.foldl romanFoldStep (0, p)).1) := by decide

theorem roman_pos_H : ∀ b ∈ ([] :: romanHCands),
    ∀ p ∈ [(0 : Int), 1, 5, 10, 50],
    0 ≤ (b.reverse.foldl romanFoldStep (0, p)).1 ∧
      (b ≠ [] → 1 ≤ (b.reverse.foldl romanFoldStep (0, p)).1) := by decide

theorem roman_pos_M : ∀ a ∈ ([] :: romanMCands),
    ∀ p ∈ [(0 : Int), 1, 5, 10, 50, 100, 500],
    0 ≤ (a.reverse.foldl romanFoldStep (0, p)).1 ∧
      (a ≠ [] → 1 ≤ (a.reverse.foldl romanFoldStep (0, p)).1) := by decide

theorem roman_hv_U : ∀ d ∈ ([] :: romanUCands),
    headVal d ∈ [(0 : Int), 1, 5] := by decide

theorem roman_hv_T : ∀ c ∈ ([] :: romanTCands),
    headVal c ∈ [(0 : Int), 10, 50] := by decide

theorem roman_hv_H : ∀ b ∈ ([] :: romanHCands),
    headVal b ∈ [(0 : Int), 100, 500] := by decide

theorem roman_hv_CD (c d : List Char) (hc : c ∈ ([] :: romanTCands))
    (hd : d ∈ ([] :: romanUCands)) :
    headVal (c ++ d) ∈ [(0 : Int), 1, 5, 10, 50] := by
  rw [headVal_append]
  split
  · have h := roman_hv_U d hd
    simp only [List.mem_cons, List.not_mem_nil, or_false] at h ⊢
    tauto
  · have h := roman_hv_T c hc
    simp only [List.mem_cons, List.not_mem_nil, or_false] at h ⊢
    tauto

theorem roman_hv_BCD (b c d : List Char) (hb : b ∈ ([] :: romanHCands))
    (hc : c ∈ ([] :: romanTCands)) (hd : d ∈ ([] :: romanUCands)) :
    headVal (b ++ (c ++ d)) ∈ [(0 : Int), 1, 5, 10, 50, 100, 500] := by
  rw [headVal_append]
  split
  · have h := roman_hv_CD c d hc hd
    simp only [List.mem_cons, List.not_mem_nil, or_false] at h ⊢
    tauto
  · have h := roman_hv_H b hb
    simp only [List.mem_cons, List.not_mem_nil, or_false] at h ⊢
    tauto

theorem canonicalRoman_value_pos (t : List Char) (h : canonicalRoman t) :
    0 < romanValue t := by
  obtain ⟨hne, a, ha, b, hb, c, hc, d, hd, heq⟩ := h
  subst heq
  rw [romanValue_append, romanValue_append, romanValue_append]
  have hU := roman_pos_U d hd
  have hT := roman_pos_T c hc (headVal d) (roman_hv_U d hd)
  have hH := roman_pos_H b hb (headVal (c ++ d)) (roman_hv_CD c d hc hd)
  have hM := roman_pos_M a ha (headVal (b ++ (c ++ d)))
    (roman_hv_BCD b c d hb hc hd)
  have hcase : a ≠ [] ∨ b ≠ [] ∨ c ≠ [] ∨ d ≠ [] := by
    by_contra hcon
    push_neg at hcon
    obtain ⟨h1, h2, h3, h4⟩ := hcon
    subst h1; subst h2; subst h3; subst h4
    exact hne rfl
  have q1 := hU.1
  have q2 := hT.1
  have q3 := hH.1
  have q4 := hM.1
  rcases hcase with hx | hx | hx | hx
  · have hp := hM.2 hx
    omega
  · have hp := hH.2 hx
    omega
  · have hp := hT.2 hx
    omega
  · have hp := hU.2 hx
    omega

/-- The spec caps M at three repeats, but the validation regex of app.py
line 15 allows up to four: MMMM is accepted and evaluates to 4000. -/
theorem roman_mmmm_counterexample : _roman_to_int (cs "MMMM") = some 4000 := by
  decide

/-- C5 (amended: up to FOUR repeats of M are accepted, not three):
_roman_to_int returns a value exactly when the stripped, uppercased input
is a nonempty roman numeral of the grammar M-0-to-4 (CM|CD|D?C-0-to-3)
(XC|XL|L?X-0-to-3) (IX|IV|V?I-0-to-3), which allows only the subtractive
pairs IV, IX, XL, XC, CD, CM, at most 3 repeats of I/X/C, at most 4
repeats of M, and no repeats of V/L/D; the empty string is rejected and
matching is case-insensitive. -/
theorem roman_to_int_some_iff (s : List Char) :
    (_roman_to_int s).isSome = true ↔
      canonicalRoman ((pyStrip s).map Char.toUpper) := by
  simp only [_roman_to_int]
  constructor
  · intro h
    by_cases h1 : (pyStrip s).map Char.toUpper = []
    · rw [if_pos h1] at h
      simp at h
    rw [if_neg h1] at h
    by_cases h2 : romanRe ((pyStrip s).map Char.toUpper) = false
    · rw [if_pos h2] at h
      simp at h
    have h2' : romanRe ((pyStrip s).map Char.toUpper) = true := by
      cases hre : romanRe ((pyStrip s).map Char.toUpper)
      · exact absurd hre h2
      · rfl
    exact canonicalRoman_of_romanRe _ h1 h2'
  · intro h
    have h1 : (pyStrip s).map Char.toUpper ≠ [] := h.1
    have h2 : romanRe ((pyStrip s).map Char.toUpper) = true := by
      obtain ⟨hne, a, ha, b, hb, c, hc, d, hd, heq⟩ := h
      rw [heq, romanRe, romanParse_of_decomp a b c d ha hb hc hd]
      rfl
    have h3 : 0 < romanValue ((pyStrip s).map Char.toUpper) :=
      canonicalRoman_value_pos _ h
    have h2f : ¬ romanRe ((pyStrip s).map Char.toUpper) = false := by
      rw [h2]
      simp
    rw [if_neg h1, if_neg h2f, if_pos h3]
    rfl

/-- A concrete instance of the amended C5 equivalence: mcmxcix (with
surrounding blanks and in lower case) is accepted, and its normal form
MCMXCIX is canonical. -/
theorem roman_to_int_some_iff_witness :
    (_roman_to_int (cs " mcmxcix ")).isSome = true ∧
      canonicalRoman ((pyStrip (cs " mcmxcix ")).map Char.toUpper) := by
  have h := (roman_to_int_some_iff (cs " mcmxcix ")).mp (by decide)
  exact ⟨by decide, h⟩

/-!
Closed form of the greedy encoder _int_to_roman: the inner while loop
emits the symbol floor(n / v) times and leaves n mod v, the outer fold
accumulates text on the left, and the table splits into a thousands entry
followed by hundreds, tens and units blocks that are scaled copies of one
another.
-/

theorem whileSubAux_eq (v : Nat) (sym : List Char) (hv : 0 < v) :
    ∀ fuel n, n ≤ fuel →
      whileSubAux v sym fuel n =
        ((List.replicate (n / v) sym).flatten, n % v) := by
  intro fuel
  induction fuel with
  | zero =>
    intro n hn
    have h0 : n = 0 := Nat.le_zero.mp hn
    subst h0
    rw [Nat.zero_div, Nat.zero_mod]
    rfl
  | succ f ih =>
    intro n hn
    simp only [whileSubAux]
    by_cases hvn : v ≤ n
    · rw [if_pos hvn]
      rw [ih (n - v) (by omega)]
      have hdiv : n / v = (n - v) / v + 1 := Nat.div_eq_sub_div hv hvn
      have hmod : n % v = (n - v) % v := Nat.mod_eq_sub_mod hvn
      rw [hdiv, hmod, List.replicate_succ, List.flatten_cons]
    · rw [if_neg hvn]
      have hlt : n < v := Nat.lt_of_not_le hvn
      rw [Nat.div_eq_of_lt hlt, Nat.mod_eq_of_lt hlt]
      rfl

theorem whileSub_eq (v : Nat) (sym : List Char) (n : Nat) (hv : 0 < v) :
    whileSub v sym n = ((List.replicate (n / v) sym).flatten, n % v) :=
  whileSubAux_eq v sym hv n n (Nat.le_refl n)

theorem intToRoman_foldl_acc (tab : List (Nat × List Char)) :
    ∀ (pre : List Char) (r : Nat),
      tab.foldl intToRomanStep (pre, r) =
        (pre ++ (tab.foldl intToRomanStep ([], r)).1,
         (tab.foldl intToRomanStep ([], r)).2) := by
  induction tab with
  | nil =>
    intro pre r
    simp
  | cons p rest ih =>
    intro pre r
    rw [List.foldl_cons, List.foldl_cons]
    simp only [intToRomanStep, List.nil_append]
    rw [ih (pre ++ (whileSub p.1 p.2 r).1) (whileSub p.1 p.2 r).2,
        ih (whileSub p.1 p.2 r).1 (whileSub p.1 p.2 r).2]
    simp [List.append_assoc]

theorem whileSub_scale (k v : Nat) (sym : List Char) (h s : Nat)
    (hk : 0 < k) (hv : 0 < v) (hs : s < k) :
    whileSub (k * v) sym (k * h + s) =
      ((whileSub v sym h).1, k * (whileSub v sym h).2 + s) := by
  rw [whileSub_eq (k * v) sym _ (by positivity), whileSub_eq v sym h hv]
  have hdiv : (k * h + s) / (k * v) = h / v := by
    rw [← Nat.div_div_eq_div_mul]
    congr 1
    rw [Nat.mul_add_div hk, Nat.div_eq_of_lt hs, Nat.add_zero]
  have hmod : (k * h + s) % (k * v) = k * (h % v) + s := by
    have e1 : k * h + s = (k * (h % v) + s) + (k * v) * (h / v) := by
      have e0 : v * (h / v) + h % v = h := Nat.div_add_mod h v
      calc k * h + s = k * (v * (h / v) + h % v) + s := by rw [e0]
        _ = (k * (h % v) + s) + (k * v) * (h / v) := by ring
    rw [e1, Nat.add_mul_mod_self_left]
    apply Nat.mod_eq_of_lt
    have h1 : h % v < v := Nat.mod_lt h hv
    calc k * (h % v) + s < k * (h % v) + k := by omega
      _ = k * (h % v + 1) := by ring
      _ ≤ k * v := Nat.mul_le_mul_left k h1
  rw [hdiv, hmod]

theorem intToRoman_foldl_scale (k : Nat) (hk : 0 < k) :
    ∀ (tab : List (Nat × List Char)), (∀ p ∈ tab, 0 < p.1) →
    ∀ (h s : Nat), s < k →
      ((tab.map (fun p => (k * p.1, p.2))).foldl intToRomanStep
          ([], k * h + s)) =
        ((tab.foldl intToRomanStep ([], h)).1,
         k * (tab.foldl intToRomanStep ([], h)).2 + s) := by
  intro tab
  induction tab with
  | nil =>
    intro _ h s hs
    simp
  | cons p rest ih =>
    intro hpos h s hs
    obtain ⟨v, sym⟩ := p
    have hp : 0 < v := hpos (v, sym) (List.mem_cons_self _ _)
    rw [List.map_cons, List.foldl_cons, List.foldl_cons]
    simp only [intToRomanStep, List.nil_append]
    rw [whileSub_scale k v sym h s hk hp hs]
    rw [intToRoman_foldl_acc (rest.map (fun p => (k * p.1, p.2)))
        (whileSub v sym h).1 (k * (whileSub v sym h).2 + s)]
    rw [ih (fun q hq => hpos q (List.mem_cons_of_mem _ hq))
        (whileSub v sym h).2 s hs]
    rw [intToRoman_foldl_acc rest (whileSub v sym h).1 (whileSub v sym h).2]

theorem replicate_M_eq :
    ∀ m < 4, (List.replicate m (cs "M")).flatten = romanMDigit m := by decide

theorem stage_H : ∀ h < 10,
    ([(9, cs "CM"), (5, cs "D"), (4, cs "CD"), (1, cs "C")].foldl
        intToRomanStep ([], h)) = (romanHDigit h, 0) := by decide

theorem stage_T : ∀ t < 10,
    ([(9, cs "XC"), (5, cs "L"), (4, cs "XL"), (1, cs "X")].foldl
        intToRomanStep ([], t)) = (romanTDigit t, 0) := by decide

theorem stage_U : ∀ u < 10,
    ([(9, cs "IX"), (5, cs "V"), (4, cs "IV"), (1, cs "I")].foldl
        intToRomanStep ([], u)) = (romanUDigit u, 0) := by decide

theorem romanTable_split :
    romanTable =
      [(1000, cs "M")] ++
        (([(9, cs "CM"), (5, cs "D"), (4, cs "CD"), (1, cs "C")].map
            (fun p => (100 * p.1, p.2))) ++
          (([(9, cs "XC"), (5, cs "L"), (4, cs "XL"), (1, cs "X")].map
              (fun p => (10 * p.1, p.2))) ++
            [(9, cs "IX"), (5, cs "V"), (4, cs "IV"), (1, cs "I")])) := by
  decide

theorem int_to_roman_decomp (n : Nat) (hn : n ≤ 3999) :
    _int_to_roman n =
      romanMDigit (n / 1000) ++
        (romanHDigit (n % 1000 / 100) ++
          (romanTDigit (n % 100 / 10) ++ romanUDigit (n % 10))) := by
  rw [_int_to_roman, romanTable_split]
  rw [List.foldl_append, List.foldl_append, List.foldl_append]
  have e1 : ([(1000, cs "M")].foldl intToRomanStep
        (([] : List Char), n)) = (romanMDigit (n / 1000), n % 1000) := by
    simp only [List.foldl_cons, List.foldl_nil, intToRomanStep,
      List.nil_append]
    rw [whileSub_eq 1000 (cs "M") n (by norm_num)]
    rw [replicate_M_eq (n / 1000) (by omega)]
  rw [e1]
  have e2 : (([(9, cs "CM"), (5, cs "D"), (4, cs "CD"), (1, cs "C")].map
        (fun p => (100 * p.1, p.2))).foldl intToRomanStep
        (romanMDigit (n / 1000), n % 1000)) =
      (romanMDigit (n / 1000) ++ romanHDigit (n % 1000 / 100), n % 100) := by
    rw [intToRoman_foldl_acc]
    rw [show n % 1000 = 100 * (n % 1000 / 100) + n % 100 from by omega]
    rw [intToRoman_foldl_scale 100 (by norm_num) _ (by decide)
        (n % 1000 / 100) (n % 100) (by omega)]
    rw [stage_H (n % 1000 / 100) (by omega)]
    rw [show (100 * (n % 1000 / 100) + n % 100) / 100 = n % 1000 / 100
        from by omega]
    simp
  rw [e2]
  have e3 : (([(9, cs "XC"), (5, cs "L"), (4, cs "XL"), (1, cs "X")].map
        (fun p => (10 * p.1, p.2))).foldl intToRomanStep
        (romanMDigit (n / 1000) ++ romanHDigit (n % 1000 / 100), n % 100)) =
      (romanMDigit (n / 1000) ++ romanHDigit (n % 1000 / 100) ++
        romanTDigit (n % 100 / 10), n % 10) := by
    rw [intToRoman_foldl_acc]
    rw [show n % 100 = 10 * (n % 100 / 10) + n % 10 from by omega]
    rw [intToRoman_foldl_scale 10 (by norm_num) _ (by decide)
        (n % 100 / 10) (n % 10) (by omega)]
    rw [stage_T (n % 100 / 10) (by omega)]
    rw [show (10 * (n % 100 / 10) + n % 10) / 10 = n % 100 / 10
        from by omega]
    simp
  rw [e3]
  have e4 : ([(9, cs "IX"), (5, cs "V"), (4, cs "IV"), (1, cs "I")].foldl
        intToRomanStep
        (romanMDigit (n / 1000) ++ romanHDigit (n % 1000 / 100) ++
          romanTDigit (n % 100 / 10), n % 10)) =
      (romanMDigit (n / 1000) ++ romanHDigit (n % 1000 / 100) ++
        romanTDigit (n % 100 / 10) ++ romanUDigit (n % 10), 0) := by
    rw [intToRoman_foldl_acc]
    rw [stage_U (n % 10) (by omega)]
  rw [e4]
  simp [List.append_assoc]

theorem roman_val_U : ∀ u < 10, romanValue (romanUDigit u) = (u : Int) := by
  decide

theorem roman_val_T : ∀ t < 10, ∀ p ∈ [(0 : Int), 1, 5],
    ((romanTDigit t).reverse.foldl romanFoldStep (0, p)).1 =
      10 * (t : Int) := by decide

theorem roman_val_H : ∀ h < 10, ∀ p ∈ [(0 : Int), 1, 5, 10, 50],
    ((romanHDigit h).reverse.foldl romanFoldStep (0, p)).1 =
      100 * (h : Int) := by decide

theorem roman_val_M : ∀ m < 4, ∀ p ∈ [(0 : Int), 1, 5, 10, 50, 100, 500],
    ((romanMDigit m).reverse.foldl romanFoldStep (0, p)).1 =
      1000 * (m : Int) := by decide

theorem roman_digit_mem_M : ∀ m < 4, romanMDigit m ∈ ([] :: romanMCands) := by
  decide

theorem roman_digit_mem_H : ∀ h < 10, romanHDigit h ∈ ([] :: romanHCands) := by
  decide

theorem roman_digit_mem_T : ∀ t < 10, romanTDigit t ∈ ([] :: romanTCands) := by
  decide

theorem roman_digit_mem_U : ∀ u < 10, romanUDigit u ∈ ([] :: romanUCands) := by
  decide

theorem roman_chars_M : ∀ m < 4, ∀ ch ∈ romanMDigit m,
    isPySpace ch = false ∧ Char.toUpper ch = ch := by decide

theorem roman_chars_H : ∀ h < 10, ∀ ch ∈ romanHDigit h,
    isPySpace ch = false ∧ Char.toUpper ch = ch := by decide

theorem roman_chars_T : ∀ t < 10, ∀ ch ∈ romanTDigit t,
    isPySpace ch = false ∧ Char.toUpper ch = ch := by decide

theorem roman_chars_U : ∀ u < 10, ∀ ch ∈ romanUDigit u,
    isPySpace ch = false ∧ Char.toUpper ch = ch := by decide

theorem roman_digit_nil_M : ∀ m < 4, romanMDigit m = [] → m = 0 := by decide

theorem roman_digit_nil_H : ∀ h < 10, romanHDigit h = [] → h = 0 := by decide

theorem roman_digit_nil_T : ∀ t < 10, romanTDigit t = [] → t = 0 := by decide

theorem roman_digit_nil_U : ∀ u < 10, romanUDigit u = [] → u = 0 := by decide

theorem dropWhile_eq_self_of_none (p : Char → Bool) (l : List Char)
    (h : ∀ c ∈ l, p c = false) : l.dropWhile p = l := by
  cases l with
  | nil => rfl
  | cons c cr =>
    rw [List.dropWhile_cons, h c (List.mem_cons_self _ _)]
    simp

theorem pyStrip_eq_self (s : List Char) (h : ∀ c ∈ s, isPySpace c = false) :
    pyStrip s = s := by
  rw [pyStrip]
  rw [dropWhile_eq_self_of_none _ s h]
  rw [dropWhile_eq_self_of_none _ s.reverse
      (fun c hc => h c (List.mem_reverse.mp hc))]
  rw [List.reverse_reverse]

theorem map_toUpper_eq_self (s : List Char)
    (h : ∀ c ∈ s, Char.toUpper c = c) : s.map Char.toUpper = s := by
  induction s with
  | nil => rfl
  | cons c cr ih =>
    rw [List.map_cons, h c (List.mem_cons_self _ _),
        ih (fun x hx => h x (List.mem_cons_of_mem _ hx))]

theorem romanValue_digits (m h t u : Nat) (hm : m < 4) (hh : h < 10)
    (ht : t < 10) (hu : u < 10) :
    romanValue (romanMDigit m ++
        (romanHDigit h ++ (romanTDigit t ++ romanUDigit u))) =
      1000 * (m : Int) + 100 * (h : Int) + 10 * (t : Int) + (u : Int) := by
  rw [romanValue_append, romanValue_append, romanValue_append]
  have hvu : headVal (romanUDigit u) ∈ [(0 : Int), 1, 5] :=
    roman_hv_U _ (roman_digit_mem_U u hu)
  have hvtu : headVal (romanTDigit t ++ romanUDigit u) ∈
      [(0 : Int), 1, 5, 10, 50] :=
    roman_hv_CD _ _ (roman_digit_mem_T t ht) (roman_digit_mem_U u hu)
  have hvhtu : headVal (romanHDigit h ++ (romanTDigit t ++ romanUDigit u)) ∈
      [(0 : Int), 1, 5, 10, 50, 100, 500] :=
    roman_hv_BCD _ _ _ (roman_digit_mem_H h hh) (roman_digit_mem_T t ht)
      (roman_digit_mem_U u hu)
  rw [roman_val_M m hm _ hvhtu, roman_val_H h hh _ hvtu,
      roman_val_T t ht _ hvu, roman_val_U u hu]
  ring

/-- C6: for every n between 1 and 3999, decoding the greedy roman encoding
of n gives back exactly n: _roman_to_int (_int_to_roman n) = some n. -/
theorem roman_int_roundtrip (n : Nat) (h1 : 1 ≤ n) (h2 : n ≤ 3999) :
    _roman_to_int (_int_to_roman n) = some (n : Int) := by
  have hm : n / 1000 < 4 := by omega
  have hh : n % 1000 / 100 < 10 := by omega
  have ht : n % 100 / 10 < 10 := by omega
  have hu : n % 10 < 10 := by omega
  have hdec := int_to_roman_decomp n h2
  have hchars : ∀ ch ∈ _int_to_roman n,
      isPySpace ch = false ∧ Char.toUpper ch = ch := by
    rw [hdec]
    intro ch hch
    simp only [List.mem_append] at hch
    rcases hch with h | h | h | h
    · exact roman_chars_M _ hm ch h
    · exact roman_chars_H _ hh ch h
    · exact roman_chars_T _ ht ch h
    · exact roman_chars_U _ hu ch h
  have hstrip : pyStrip (_int_to_roman n) = _int_to_roman n :=
    pyStrip_eq_self _ (fun c hc => (hchars c hc).1)
  have hupper : (_int_to_roman n).map Char.toUpper = _int_to_roman n :=
    map_toUpper_eq_self _ (fun c hc => (hchars c hc).2)
  have hne : _int_to_roman n ≠ [] := by
    rw [hdec]
    intro hcon
    simp only [List.append_eq_nil] at hcon
    obtain ⟨e1, e2, e3, e4⟩ := hcon
    have z1 := roman_digit_nil_M _ hm e1
    have z2 := roman_digit_nil_H _ hh e2
    have z3 := roman_digit_nil_T _ ht e3
    have z4 := roman_digit_nil_U _ hu e4
    omega
  have hre : romanRe (_int_to_roman n) = true := by
    rw [hdec, romanRe,
        romanParse_of_decomp _ _ _ _ (roman_digit_mem_M _ hm)
          (roman_digit_mem_H _ hh) (roman_digit_mem_T _ ht)
          (roman_digit_mem_U _ hu)]
    rfl
  have hval : romanValue (_int_to_roman n) = (n : Int) := by
    rw [hdec, romanValue_digits _ _ _ _ hm hh ht hu]
    omega
  have hpos : (0 : Int) < romanValue (_int_to_roman n) := by
    rw [hval]
    omega
  simp only [_roman_to_int]
  rw [hstrip, hupper]
  rw [if_neg hne]
  have hfalse : ¬ romanRe (_int_to_roman n) = false := by
    rw [hre]
    simp
  rw [if_neg hfalse, if_pos hpos, hval]

/-- A concrete instance of the C6 roundtrip: 1987 encodes to MCMLXXXVII
and decodes back to 1987. -/
theorem roman_int_roundtrip_witness :
    1 ≤ 1987 ∧ 1987 ≤ 3999 ∧
      _roman_to_int (_int_to_roman 1987) = some 1987 :=
  ⟨by decide, by decide, roman_int_roundtrip 1987 (by decide) (by decide)⟩
